import Mathlib

/-
Shallow embedding of the bunvas software rasterizer (src/image.ts):
an RGBA pixel buffer (class Image) and a batching draw engine
(class ImageDrawer).

Modelling conventions:
  - JavaScript numbers are modelled by ℚ; a possibly-NaN value is
    modelled by JSNum := Option ℚ (none = NaN / undefined).
  - Math.round x = ⌊x + 1/2⌋ (JS rounds half toward +∞).
  - The Uint8ClampedArray backing store is a List ℕ; storing a value
    applies the ECMAScript ToUint8Clamp conversion (NaN ↦ 0, clamp to
    [0,255], round half to even).  Out-of-range writes are no-ops for
    a JS typed array, matching List.set.
  - Exceptions are modelled with an explicit error slot (Option String)
    threaded together with the mutable state, so partially applied
    mutations survive a thrown error exactly as in JS.
  - Loops are modelled with explicit fuel.  Exhausted fuel returns the
    sentinel error "nontermination"; call sites pass fuel that provably
    suffices whenever the JS loop terminates, so the sentinel marks
    exactly the inputs on which the JS code diverges.
-/

/-- JS number that may be NaN (none). -/
abbrev JSNum := Option ℚ

def jadd : JSNum → JSNum → JSNum
  | some a, some b => some (a + b)
  | _, _ => none

def jsub : JSNum → JSNum → JSNum
  | some a, some b => some (a - b)
  | _, _ => none

def jmul : JSNum → JSNum → JSNum
  | some a, some b => some (a * b)
  | _, _ => none

/-- Division of a JS number by a nonzero rational constant. -/
def jdivq (a : JSNum) (d : ℚ) : JSNum := a.map (· / d)

/-- JS Math.round on a finite number: round half toward positive infinity. -/
def jsRound (q : ℚ) : ℤ := ⌊q + 1 / 2⌋

/-- JS Math.round lifted to possibly-NaN values (Math.round NaN = NaN). -/
def jnRound : JSNum → JSNum
  | some q => some ((jsRound q : ℤ) : ℚ)
  | none => none

/-- ECMAScript ToUint8Clamp: NaN ↦ 0, clamp to [0,255], round half to even. -/
def toUint8Clamp : JSNum → ℕ
  | none => 0
  | some x =>
    if x ≤ 0 then 0
    else if 255 ≤ x then 255
    else
      let f := ⌊x⌋
      (if 1 / 2 < x - f then f + 1
       else if x - f < 1 / 2 then f
       else if f % 2 = 0 then f
       else f + 1).toNat

/-- Fuel bound for an ascending loop running from a up to b (model
artifact; proved sufficient for the loops it is passed to). -/
def fuelFor (a b : ℚ) : ℕ := (⌈b - a⌉ + 1).toNat + 1

/-! Color model (Image.util.toColor). -/

/-- Surface color representations: a 3/4-element numeric array, or a
string (hex or hsl).  Other JS values are rejected by toColor just like
a wrong-length array, so they are not modelled separately. -/
inductive Color where
  | arr (cs : List JSNum)
  | str (s : String)
deriving DecidableEq

/-- Normalized RGBA quadruple as produced by toColor (channels may be
NaN, e.g. from malformed hex digits). -/
abbrev FullColor := JSNum × JSNum × JSNum × JSNum

def isHexDigitB (c : Char) : Bool :=
  (('0' ≤ c ∧ c ≤ '9') ∨ ('a' ≤ c ∧ c ≤ 'f') ∨ ('A' ≤ c ∧ c ≤ 'F') : Bool)

def hexVal (c : Char) : ℕ :=
  if '0' ≤ c ∧ c ≤ '9' then c.toNat - '0'.toNat
  else if 'a' ≤ c ∧ c ≤ 'f' then c.toNat - 'a'.toNat + 10
  else c.toNat - 'A'.toNat + 10

/-- Characters treated as whitespace by JS (the ASCII part of StrWhiteSpaceChar). -/
def jsWhite (c : Char) : Bool :=
  c = ' ' ∨ c = '\t' ∨ c = '\n' ∨ c = '\r' ∨ c = '\x0b' ∨ c = '\x0c'

/-- JS parseInt(s, 16): skip whitespace, optional sign, optional 0x/0X
prefix, then the longest prefix of hex digits; none (NaN) if that prefix
is empty. -/
def jsParseIntHex (cs : List Char) : Option ℤ :=
  let cs1 := cs.dropWhile jsWhite
  let sgn : ℤ × List Char :=
    match cs1 with
    | '-' :: rest => (-1, rest)
    | '+' :: rest => (1, rest)
    | _ => (1, cs1)
  let cs2 :=
    match sgn.2 with
    | '0' :: 'x' :: rest => rest
    | '0' :: 'X' :: rest => rest
    | _ => sgn.2
  let ds := cs2.takeWhile isHexDigitB
  if ds.isEmpty then none
  else some (sgn.1 * ds.foldl (fun a c => a * 16 + (hexVal c : ℤ)) 0)

def natOfDigits (ds : List Char) : ℕ :=
  ds.foldl (fun a c => a * 10 + (c.toNat - '0'.toNat)) 0

/-- Longest digit run at the front; fails if empty (one \d+ group). -/
def parseNatSeg (cs : List Char) : Option (ℕ × List Char) :=
  let ds := cs.takeWhile Char.isDigit
  if ds.isEmpty then none
  else some (natOfDigits ds, cs.dropWhile Char.isDigit)

/-- Model of the regex match hsl\((\d+),\s*(\d+),\s*(\d+)\) anchored at
both ends, returning the three captured integers. -/
def hslMatch (cs : List Char) : Option (ℕ × ℕ × ℕ) := do
  let rest ←
    match cs with
    | 'h' :: 's' :: 'l' :: '(' :: rest => some rest
    | _ => none
  let (h, r1) ← parseNatSeg rest
  let r2 ←
    match r1 with
    | ',' :: t => some (t.dropWhile jsWhite)
    | _ => none
  let (s, r3) ← parseNatSeg r2
  let r4 ←
    match r3 with
    | ',' :: t => some (t.dropWhile jsWhite)
    | _ => none
  let (l, r5) ← parseNatSeg r4
  match r5 with
  | [')'] => some (h, s, l)
  | _ => none

/-- Image.util.toColor.  Array input: length 3 gets alpha 255 appended,
length 4 is returned as is, otherwise an error.  String input: the
hsl( prefix selects the HSL conversion (invalid syntax errors), the #
prefix selects hex parsing (only the length is validated; the pairs go
through parseInt and malformed pairs become NaN), anything else errors. -/
def toColor : Color → Except String FullColor
  | .arr cs =>
    match cs with
    | [r, g, b] => .ok (r, g, b, some 255)
    | [r, g, b, a] => .ok (r, g, b, a)
    | _ => .error "Invalid color"
  | .str s =>
    let cs := s.data
    if cs.take 4 = ['h', 's', 'l', '('] then
      match hslMatch cs with
      | none => .error "Invalid color"
      | some (h, sat, l) =>
        let c : ℚ := (l : ℚ) / 100 * (sat : ℚ) / 100
        let h60 : ℚ := (h : ℚ) / 60
        let hm2 : ℚ := h60 - 2 * (⌊h60 / 2⌋ : ℤ)
        let x : ℚ := c * (1 - |hm2 - 1|)
        let m : ℚ := (l : ℚ) / 100 - c
        let rgb : ℚ × ℚ × ℚ :=
          if h < 60 then (c, x, 0)
          else if h < 120 then (x, c, 0)
          else if h < 180 then (0, c, x)
          else if h < 240 then (0, x, c)
          else if h < 300 then (x, 0, c)
          else if h < 360 then (c, 0, x)
          else (0, 0, 0)
        .ok (some ((jsRound ((rgb.1 + m) * 255) : ℤ) : ℚ),
             some ((jsRound ((rgb.2.1 + m) * 255) : ℤ) : ℚ),
             some ((jsRound ((rgb.2.2 + m) * 255) : ℤ) : ℚ),
             some 255)
    else if cs.take 1 = ['#'] then
      if cs.length ≠ 7 ∧ cs.length ≠ 9 then .error "Invalid color"
      else
        let hex := cs.drop 1
        let r := (jsParseIntHex (hex.take 2)).map fun z => (z : ℚ)
        let g := (jsParseIntHex ((hex.drop 2).take 2)).map fun z => (z : ℚ)
        let b := (jsParseIntHex ((hex.drop 4).take 2)).map fun z => (z : ℚ)
        let a : JSNum :=
          if hex.length = 8 then (jsParseIntHex ((hex.drop 6).take 2)).map fun z => (z : ℚ)
          else some 255
        .ok (r, g, b, a)
    else .error "Invalid color"

/-! Pixel buffer (class Image). -/

abbrev Buffer := List ℕ

/-- Typed-array read at a real-valued index: undefined (none, which then
behaves as NaN in arithmetic) outside [0, length) or at a fractional
index. -/
def readByte (buf : Buffer) (i : ℚ) : JSNum :=
  if 0 ≤ i ∧ i.den = 1 then (buf.get? i.num.toNat).map fun n => (n : ℚ)
  else none

/-- Typed-array write: silently ignored out of range (List.set also
ignores an out-of-range index). -/
def writeByte (buf : Buffer) (i : ℤ) (v : ℕ) : Buffer :=
  if 0 ≤ i then buf.set i.toNat v else buf

/-- Image.get: reads the raw 4 bytes at index (y·W + x)·4. -/
def jsGet (W : ℤ) (buf : Buffer) (p : ℚ × ℚ) : FullColor :=
  let index : ℚ := (p.2 * (W : ℚ) + p.1) * 4
  (readByte buf index, readByte buf (index + 1),
   readByte buf (index + 2), readByte buf (index + 3))

/-- Image.set: normalize the color, round the coordinates, silently
return if the rounded point is out of range, else overwrite 4 bytes. -/
def jsSet (W H : ℤ) (buf : Buffer) (p : ℚ × ℚ) (c : Color) :
    Option String × Buffer :=
  match toColor c with
  | .error e => (some e, buf)
  | .ok (r, g, b, a) =>
    let x := jsRound p.1
    let y := jsRound p.2
    if x < 0 ∨ W ≤ x ∨ y < 0 ∨ H ≤ y then (none, buf)
    else
      let index := (y * W + x) * 4
      (none,
        writeByte (writeByte (writeByte (writeByte buf
          index (toUint8Clamp r))
          (index + 1) (toUint8Clamp g))
          (index + 2) (toUint8Clamp b))
          (index + 3) (toUint8Clamp a))

/-- Image.add: alpha-blended write.  Reads the current color, normalizes
the incoming color, computes r3 = round(r·ᾱ + r2·α) (g3, b3 alike) and
a3 = a + a2·ᾱ, then delegates to set with the 4-element array color. -/
def jsAdd (W H : ℤ) (buf : Buffer) (p : ℚ × ℚ) (c : Color) :
    Option String × Buffer :=
  let cur := jsGet W buf p
  match toColor c with
  | .error e => (some e, buf)
  | .ok (r2, g2, b2, a2) =>
    let alpha := jdivq a2 255
    let alphaC := jsub (some 1) alpha
    let r3 := jnRound (jadd (jmul cur.1 alphaC) (jmul r2 alpha))
    let g3 := jnRound (jadd (jmul cur.2.1 alphaC) (jmul g2 alpha))
    let b3 := jnRound (jadd (jmul cur.2.2.1 alphaC) (jmul b2 alpha))
    let a3 := jadd cur.2.2.2 (jmul a2 alphaC)
    jsSet W H buf p (.arr [r3, g3, b3, a3])

/-! Draw engine (class ImageDrawer). -/

/-- Mutable state of an ImageDrawer: configuration fields, the pending
write map (JS Map keyed by linear pixel index, in insertion order) and
the flush suppression counter. -/
structure DrawerState where
  blending : Bool
  lineThickness : ℚ
  temp : List (ℤ × Color)
  flushDisablers : ℤ
deriving DecidableEq

abbrev TempMap := List (ℤ × Color)

/-- Result of a stateful operation: error slot (a thrown exception),
the pixel buffer and the drawer state at the moment control returns. -/
structure Res where
  err : Option String
  buf : Buffer
  st : DrawerState
deriving DecidableEq

/-- Sequencing that propagates a thrown exception. -/
def Res.bind (r : Res) (f : Buffer → DrawerState → Res) : Res :=
  match r.err with
  | some _ => r
  | none => f r.buf r.st

/-- JS Map.set: update in place if the key exists (keeping its
insertion position), else append. -/
def mapSet (m : TempMap) (k : ℤ) (c : Color) : TempMap :=
  if m.any fun p => p.1 = k then
    m.map fun p => if p.1 = k then (k, c) else p
  else m ++ [(k, c)]

/-- ImageDrawer.setPixel: drop the write if the raw coordinates are out
of range, else round them and stage the color under the linear index.
The JS null-guard on temporaryBuffer is unreachable (the field is
initialized to a Map and never nulled) and is omitted. -/
def setPixelD (W H : ℤ) (st : DrawerState) (p : ℚ × ℚ) (c : Color) :
    DrawerState :=
  if p.1 < 0 ∨ (W : ℚ) ≤ p.1 ∨ p.2 < 0 ∨ (H : ℚ) ≤ p.2 then st
  else
    let x := jsRound p.1
    let y := jsRound p.2
    { st with temp := mapSet st.temp (y * W + x) c }

/-- Body of ImageDrawer.flush: apply the staged writes in insertion
order through add (blending) or set.  A thrown error stops the loop,
leaving the remaining entries unapplied.  The staged index is mapped
back to the pixel (index % width, Math.floor (index / width)); staged
indices are nonnegative, where the Lean % and the JS remainder agree. -/
def flushGo (W H : ℤ) (blending : Bool) : TempMap → Buffer → Option String × Buffer
  | [], buf => (none, buf)
  | (idx, c) :: rest, buf =>
    let p : ℚ × ℚ := (((idx % W : ℤ) : ℚ), ((⌊(idx : ℚ) / (W : ℚ)⌋ : ℤ) : ℚ))
    let step := if blending then jsAdd W H buf p c else jsSet W H buf p c
    match step with
    | (some e, buf2) => (some e, buf2)
    | (none, buf2) => flushGo W H blending rest buf2

/-- ImageDrawer.flush: a no-op while suppressed; otherwise apply all
staged writes and clear the map — unless an error is thrown mid-loop,
in which case the clear is never reached. -/
def flush (W H : ℤ) (buf : Buffer) (st : DrawerState) : Res :=
  if st.flushDisablers ≠ 0 then ⟨none, buf, st⟩
  else
    match flushGo W H st.blending st.temp buf with
    | (some e, buf2) => ⟨some e, buf2, st⟩
    | (none, buf2) => ⟨none, buf2, { st with temp := [] }⟩

/-- Drawer state as initialized by the ImageDrawer constructor. -/
def initialDrawerState : DrawerState := ⟨true, 1, [], 0⟩

/-! Shape algorithms.  Every loop takes explicit fuel; running out
returns the sentinel "nontermination" (see the header note). -/

/-- Inner loop of drawFilledCircle (and the column loop of
drawRectangle): for i from lo to hi staging (i, ya) then (i, yb). -/
def spanLoop (W H : ℤ) (c : Color) (ya yb hi : ℚ) :
    ℕ → ℚ → DrawerState → Option String × DrawerState
  | 0, _, st => (some "nontermination", st)
  | fuel + 1, i, st =>
    if i ≤ hi then
      let st1 := setPixelD W H st (i, ya) c
      let st2 := setPixelD W H st1 (i, yb) c
      spanLoop W H c ya yb hi fuel (i + 1) st2
    else (none, st)

/-- Row loop staging a single pixel (i, yy) for i from lo to hi
(drawFilledRectangle rows, triangle scanlines). -/
def rowLoop (W H : ℤ) (c : Color) (yy hi : ℚ) :
    ℕ → ℚ → DrawerState → Option String × DrawerState
  | 0, _, st => (some "nontermination", st)
  | fuel + 1, i, st =>
    if i ≤ hi then
      rowLoop W H c yy hi fuel (i + 1) (setPixelD W H st (i, yy) c)
    else (none, st)

/-- Vertical border loop of drawRectangle: stages (xa, i) and (xb, i). -/
def vspanLoop (W H : ℤ) (c : Color) (xa xb hi : ℚ) :
    ℕ → ℚ → DrawerState → Option String × DrawerState
  | 0, _, st => (some "nontermination", st)
  | fuel + 1, i, st =>
    if i ≤ hi then
      let st1 := setPixelD W H st (xa, i) c
      let st2 := setPixelD W H st1 (xb, i) c
      vspanLoop W H c xa xb hi fuel (i + 1) st2
    else (none, st)

/-- Octant loop of drawCircle: stages the 8 symmetric points per step,
then the Bresenham decision update (y is decremented before d is
recomputed, exactly as in the source). -/
def circLoop (W H : ℤ) (xc yc : ℚ) (c : Color) :
    ℕ → ℤ → ℚ → ℚ → DrawerState → Option String × DrawerState
  | 0, _, _, _, st => (some "nontermination", st)
  | fuel + 1, x, y, d, st =>
    if (x : ℚ) ≤ y then
      let s1 := setPixelD W H st (xc + (x : ℚ), yc + y) c
      let s2 := setPixelD W H s1 (xc - (x : ℚ), yc + y) c
      let s3 := setPixelD W H s2 (xc + (x : ℚ), yc - y) c
      let s4 := setPixelD W H s3 (xc - (x : ℚ), yc - y) c
      let s5 := setPixelD W H s4 (xc + y, yc + (x : ℚ)) c
      let s6 := setPixelD W H s5 (xc - y, yc + (x : ℚ)) c
      let s7 := setPixelD W H s6 (xc + y, yc - (x : ℚ)) c
      let s8 := setPixelD W H s7 (xc - y, yc - (x : ℚ)) c
      if 0 < d then
        circLoop W H xc yc c fuel (x + 1) (y - 1) (d + 4 * ((x : ℚ) - (y - 1)) + 10) s8
      else
        circLoop W H xc yc c fuel (x + 1) y (d + 4 * (x : ℚ) + 6) s8
    else (none, st)

/-- ImageDrawer.drawCircle: Bresenham midpoint circle, then flush. -/
def drawCircle (W H : ℤ) (buf : Buffer) (st : DrawerState)
    (center : ℚ × ℚ) (radius : ℚ) (c : Color) : Res :=
  match circLoop W H center.1 center.2 c (fuelFor 0 radius) 0 radius (3 - 2 * radius) st with
  | (some e, st2) => ⟨some e, buf, st2⟩
  | (none, st2) => flush W H buf st2

/-- Octant loop of drawFilledCircle: two horizontal spans per step. -/
def fcLoop (W H : ℤ) (xc yc : ℚ) (c : Color) :
    ℕ → ℤ → ℚ → ℚ → DrawerState → Option String × DrawerState
  | 0, _, _, _, st => (some "nontermination", st)
  | fuel + 1, x, y, d, st =>
    if (x : ℚ) ≤ y then
      match spanLoop W H c (yc + y) (yc - y) (xc + (x : ℚ))
          (fuelFor (xc - (x : ℚ)) (xc + (x : ℚ))) (xc - (x : ℚ)) st with
      | (some e, st2) => (some e, st2)
      | (none, st2) =>
        match spanLoop W H c (yc + (x : ℚ)) (yc - (x : ℚ)) (xc + y)
            (fuelFor (xc - y) (xc + y)) (xc - y) st2 with
        | (some e, st3) => (some e, st3)
        | (none, st3) =>
          if 0 < d then
            fcLoop W H xc yc c fuel (x + 1) (y - 1) (d + 4 * ((x : ℚ) - (y - 1)) + 10) st3
          else
            fcLoop W H xc yc c fuel (x + 1) y (d + 4 * (x : ℚ) + 6) st3
    else (none, st)

/-- ImageDrawer.drawFilledCircle: filled Bresenham circle, then flush. -/
def drawFilledCircle (W H : ℤ) (buf : Buffer) (st : DrawerState)
    (center : ℚ × ℚ) (radius : ℚ) (c : Color) : Res :=
  match fcLoop W H center.1 center.2 c (fuelFor 0 radius) 0 radius (3 - 2 * radius) st with
  | (some e, st2) => ⟨some e, buf, st2⟩
  | (none, st2) => flush W H buf st2

/-- Body of one drawLine iteration: with lineThickness > 1, bump the
suppression counter, draw a filled circle of radius thickness/2 at the
current point and restore the counter; otherwise stage one pixel. -/
def bresBody (W H : ℤ) (c : Color) (x0 y0 : ℤ) (buf : Buffer)
    (st : DrawerState) : Res :=
  if 1 < st.lineThickness then
    let st1 := { st with flushDisablers := st.flushDisablers + 1 }
    (drawFilledCircle W H buf st1 ((x0 : ℚ), (y0 : ℚ)) (st.lineThickness / 2) c).bind
      fun buf2 st2 =>
        ⟨none, buf2, { st2 with flushDisablers := st2.flushDisablers - 1 }⟩
  else ⟨none, buf, setPixelD W H st ((x0 : ℚ), (y0 : ℚ)) c⟩

/-- Main loop of drawLine: stage the current pixel (or thick dot),
stop at the endpoint, else advance by the midpoint rule e2 = 2·err,
x steps when e2 > −dy, y steps when e2 < dx. -/
def bresLoop (W H : ℤ) (x1 y1 dx dy sx sy : ℤ) (c : Color) :
    ℕ → ℤ → ℤ → ℤ → Buffer → DrawerState → Res
  | 0, _, _, _, buf, st => ⟨some "nontermination", buf, st⟩
  | fuel + 1, x0, y0, e, buf, st =>
    (bresBody W H c x0 y0 buf st).bind fun buf2 st2 =>
      if x0 = x1 ∧ y0 = y1 then ⟨none, buf2, st2⟩
      else
        let e2 := 2 * e
        let ex : ℤ × ℤ := if -dy < e2 then (e - dy, x0 + sx) else (e, x0)
        let ey : ℤ × ℤ := if e2 < dx then (ex.1 + dx, y0 + sy) else (ex.1, y0)
        bresLoop W H x1 y1 dx dy sx sy c fuel ex.2 ey.2 ey.1 buf2 st2

/-- ImageDrawer.drawLine: round both endpoints, run Bresenham from the
start to the end inclusive, then flush. -/
def drawLine (W H : ℤ) (buf : Buffer) (st : DrawerState)
    (pstart pend : ℚ × ℚ) (c : Color) : Res :=
  let x0 := jsRound pstart.1
  let y0 := jsRound pstart.2
  let x1 := jsRound pend.1
  let y1 := jsRound pend.2
  let dx := |x1 - x0|
  let dy := |y1 - y0|
  let sx : ℤ := if x0 < x1 then 1 else -1
  let sy : ℤ := if y0 < y1 then 1 else -1
  (bresLoop W H x1 y1 dx dy sx sy c ((dx + dy).toNat + 1) x0 y0 (dx - dy) buf st).bind
    (flush W H)

/-- Outer row loop of drawFilledRectangle. -/
def frectLoop (W H : ℤ) (c : Color) (x0 x1 y1 : ℚ) :
    ℕ → ℚ → DrawerState → Option String × DrawerState
  | 0, _, st => (some "nontermination", st)
  | fuel + 1, y, st =>
    if y ≤ y1 then
      match rowLoop W H c y x1 (fuelFor x0 x1) x0 st with
      | (some e, st2) => (some e, st2)
      | (none, st2) => frectLoop W H c x0 x1 y1 fuel (y + 1) st2
    else (none, st)

/-- ImageDrawer.drawFilledRectangle: every pixel of the inclusive
bounding box, then flush. -/
def drawFilledRectangle (W H : ℤ) (buf : Buffer) (st : DrawerState)
    (p1 p2 : ℚ × ℚ) (c : Color) : Res :=
  match frectLoop W H c p1.1 p2.1 p2.2 (fuelFor p1.2 p2.2) p1.2 st with
  | (some e, st2) => ⟨some e, buf, st2⟩
  | (none, st2) => flush W H buf st2

/-- ImageDrawer.drawRectangle: top/bottom borders per column, then
left/right borders per row, then flush. -/
def drawRectangle (W H : ℤ) (buf : Buffer) (st : DrawerState)
    (p1 p2 : ℚ × ℚ) (c : Color) : Res :=
  match spanLoop W H c p1.2 p2.2 p2.1 (fuelFor p1.1 p2.1) p1.1 st with
  | (some e, st2) => ⟨some e, buf, st2⟩
  | (none, st2) =>
    match vspanLoop W H c p1.1 p2.1 p2.2 (fuelFor p1.2 p2.2) p1.2 st2 with
    | (some e, st3) => ⟨some e, buf, st3⟩
    | (none, st3) => flush W H buf st3

/-! Triangle rasterization.  The source divides by (y1 − y0) etc.
without a zero check; JS then yields ±Infinity or NaN, so the scanline
bounds need an extended number type. -/

/-- JS number extended with the infinities and NaN, as produced by the
slope divisions of drawTriangle. -/
inductive ExtQ where
  | fin (q : ℚ)
  | pinf
  | ninf
  | nan
deriving DecidableEq

/-- JS division a / b including the b = 0 cases. -/
def ediv (a b : ℚ) : ExtQ :=
  if b = 0 then (if a = 0 then .nan else if 0 < a then .pinf else .ninf)
  else .fin (a / b)

/-- JS addition on extended numbers (opposite infinities give NaN). -/
def eadd : ExtQ → ExtQ → ExtQ
  | .fin a, .fin b => .fin (a + b)
  | .nan, _ => .nan
  | _, .nan => .nan
  | .pinf, .ninf => .nan
  | .ninf, .pinf => .nan
  | .pinf, _ => .pinf
  | _, .pinf => .pinf
  | .ninf, _ => .ninf
  | _, .ninf => .ninf

/-- JS Math.round on extended numbers (fixed on ±Infinity and NaN). -/
def eround : ExtQ → ExtQ
  | .fin q => .fin ((jsRound q : ℤ) : ℚ)
  | e => e

/-- JS comparison a ≤ b (false whenever NaN is involved). -/
def eleB : ExtQ → ExtQ → Bool
  | .nan, _ => false
  | _, .nan => false
  | .fin a, .fin b => a ≤ b
  | .ninf, _ => true
  | _, .pinf => true
  | .pinf, _ => false
  | _, .ninf => false

/-- One triangle scanline: for x from round(xStart) to round(xEnd).
With a finite range this is a plain row loop; a non-finite bound whose
entry test still passes makes the JS for-loop run forever (x never
passes an infinite bound, and x++ at ±2^53 or on an infinity no longer
changes x), reported as the nontermination sentinel. -/
def triSpan (W H : ℤ) (c : Color) (yy : ℚ) (xs xe : ExtQ)
    (st : DrawerState) : Option String × DrawerState :=
  match eround xs, eround xe with
  | .fin a, .fin b => rowLoop W H c yy b (fuelFor a b) a st
  | a, b => if eleB a b then (some "nontermination", st) else (none, st)

/-- One scanline pass of drawTriangle: for y from its start up to (but
excluding) ylimit, raster the span and integrate both edge slopes.
Returns the final xStart/xEnd, which the second pass reads. -/
def triPass (W H : ℤ) (c : Color) (ylimit : ℚ) (dxa dxb : ExtQ) :
    ℕ → ℚ → ExtQ → ExtQ → DrawerState →
    Option String × (ExtQ × ExtQ) × DrawerState
  | 0, _, xs, xe, st => (some "nontermination", (xs, xe), st)
  | fuel + 1, y, xs, xe, st =>
    if y < ylimit then
      match triSpan W H c y xs xe st with
      | (some e, st2) => (some e, (xs, xe), st2)
      | (none, st2) => triPass W H c ylimit dxa dxb fuel (y + 1) (eadd xs dxa) (eadd xe dxb) st2
    else (none, (xs, xe), st)

/-- ImageDrawer.drawTriangle: scanline rasterization in two passes
(top vertex to middle vertex, then middle to bottom), then flush. -/
def drawTriangle (W H : ℤ) (buf : Buffer) (st : DrawerState)
    (t : (ℚ × ℚ) × (ℚ × ℚ) × (ℚ × ℚ)) (c : Color) : Res :=
  let x0 := t.1.1
  let y0 := t.1.2
  let x1 := t.2.1.1
  let y1 := t.2.1.2
  let x2 := t.2.2.1
  let y2 := t.2.2.2
  let dx1 := ediv (x1 - x0) (y1 - y0)
  let dx2 := ediv (x2 - x0) (y2 - y0)
  match triPass W H c y1 dx1 dx2 (fuelFor y0 y1) y0 (.fin x0) (.fin x0) st with
  | (some e, _, st2) => ⟨some e, buf, st2⟩
  | (none, (xs, _), st2) =>
    let dx3 := ediv (x2 - x1) (y2 - y1)
    match triPass W H c y2 dx3 dx2 (fuelFor y1 y2) y1 xs (.fin x1) st2 with
    | (some e, _, st3) => ⟨some e, buf, st3⟩
    | (none, _, st3) => flush W H buf st3

/-! Path and bezier. -/

/-- One De Casteljau reduction pass: pairwise lerp of consecutive
points for parameter t. -/
def lerpOnce (ps : List (ℚ × ℚ)) (t : ℚ) : List (ℚ × ℚ) :=
  (ps.zip ps.tail).map fun pq =>
    (pq.1.1 + (pq.2.1 - pq.1.1) * t, pq.1.2 + (pq.2.2 - pq.1.2) * t)

/-- Reduction loop of lerpPoints; each pass shortens the list by one,
so fuel = initial length always suffices. -/
def lerpGo : ℕ → List (ℚ × ℚ) → ℚ → List (ℚ × ℚ)
  | 0, ps, _ => ps
  | fuel + 1, ps, t => if 1 < ps.length then lerpGo fuel (lerpOnce ps t) t else ps

/-- The lerpPoints helper of the source: reduce to a single point.
The [] fallback is unreachable from drawBezier (≥ 2 points checked). -/
def lerpPoints (ps : List (ℚ × ℚ)) (t : ℚ) : ℚ × ℚ :=
  (lerpGo ps.length ps t).headD (0, 0)

/-- Segment loop of drawPath: draw a line from the last point to each
remaining point in turn. -/
def pathLoop (W H : ℤ) (c : Color) :
    List (ℚ × ℚ) → (ℚ × ℚ) → Buffer → DrawerState → Res
  | [], _, buf, st => ⟨none, buf, st⟩
  | p :: rest, lastP, buf, st =>
    (drawLine W H buf st lastP p c).bind fun buf2 st2 =>
      pathLoop W H c rest p buf2 st2

/-- ImageDrawer.drawPath: fewer than 2 points throws, else draw the
consecutive segments under suppression and flush once at the end. -/
def drawPath (W H : ℤ) (buf : Buffer) (st : DrawerState)
    (points : List (ℚ × ℚ)) (c : Color) : Res :=
  if points.length < 2 then ⟨some "Invalid points", buf, st⟩
  else
    match points with
    | [] => ⟨some "Invalid points", buf, st⟩
    | p0 :: rest =>
      let st1 := { st with flushDisablers := st.flushDisablers + 1 }
      (pathLoop W H c rest p0 buf st1).bind fun buf2 st2 =>
        flush W H buf2 { st2 with flushDisablers := st2.flushDisablers - 1 }

/-- Sampling loop of drawBezier: for t from step while t ≤ 1, draw a
segment to the next curve sample.  Fuel 0 is passed exactly when the
caller supplied a step ≤ 0, for which the JS loop never terminates. -/
def bezLoop (W H : ℤ) (points : List (ℚ × ℚ)) (c : Color) (step : ℚ) :
    ℕ → ℚ → (ℚ × ℚ) → Buffer → DrawerState → Res
  | 0, _, _, buf, st => ⟨some "nontermination", buf, st⟩
  | fuel + 1, t, lastP, buf, st =>
    if t ≤ 1 then
      let p := lerpPoints points t
      (drawLine W H buf st lastP p c).bind fun buf2 st2 =>
        bezLoop W H points c step fuel (t + step) p buf2 st2
    else ⟨none, buf, st⟩

/-- ImageDrawer.drawBezier: fewer than 2 points throws; the default
step is the reciprocal of ||Δx| − |Δy|| of the control bounding box
(JS gives step = Infinity when that is 0, so the loop body never runs);
the samples are drawn under suppression and flushed once. -/
def drawBezier (W H : ℤ) (buf : Buffer) (st : DrawerState)
    (points : List (ℚ × ℚ)) (c : Color) (stepArg : Option ℚ) : Res :=
  if points.length < 2 then ⟨some "Invalid points", buf, st⟩
  else
    match points with
    | [] => ⟨some "Invalid points", buf, st⟩
    | q0 :: qrest =>
      let pmin := qrest.foldl (fun a b => (min a.1 b.1, min a.2 b.2)) q0
      let pmax := qrest.foldl (fun a b => (max a.1 b.1, max a.2 b.2)) q0
      let denom := |(|pmax.1 - pmin.1|) - (|pmax.2 - pmin.2|)|
      let st1 := { st with flushDisablers := st.flushDisablers + 1 }
      let run : ℚ → Res := fun s =>
        bezLoop W H points c s
          (if 0 < s then (⌈(1 - s) / s⌉ + 1).toNat + 1 else 0) s q0 buf st1
      let r : Res :=
        match stepArg with
        | some s => run s
        | none => if denom = 0 then ⟨none, buf, st1⟩ else run (1 / denom)
      r.bind fun buf2 st2 =>
        flush W H buf2 { st2 with flushDisablers := st2.flushDisablers - 1 }

/-- Byte loop of ImageDrawer.fill: overwrite each 4-byte pixel with the
normalized color.  The buffer length is a multiple of 4 for any image,
so the fallback case only handles a ragged tail that cannot arise. -/
def fillBytes (nc : List ℕ) : Buffer → Buffer
  | _ :: _ :: _ :: _ :: rest => nc ++ fillBytes nc rest
  | other => other

/-- ImageDrawer.fill: clear the pending batch without applying it, then
overwrite the whole buffer with the normalized color (note the clear
happens before the color is validated). -/
def fillOp (_W _H : ℤ) (buf : Buffer) (st : DrawerState) (c : Color) : Res :=
  let st1 := { st with temp := [] }
  match toColor c with
  | .error e => ⟨some e, buf, st1⟩
  | .ok (r, g, b, a) =>
    ⟨none, fillBytes [toUint8Clamp r, toUint8Clamp g, toUint8Clamp b, toUint8Clamp a] buf, st1⟩

/-! Proof-layer definitions: views of the engine used to state and
prove the theorems below.  The Batteries rational arithmetic is marked
irreducible by default, which blocks kernel evaluation of concrete
runs; restore the default reducibility for this file. -/

attribute [local semireducible] Rat.add Rat.mul Rat.sub Rat.inv

deriving instance DecidableEq for Except

/-- Keys (linear pixel indices) of a pending-write map. -/
def keysOf (m : TempMap) : List ℤ := m.map Prod.fst

/-- Every staged entry carries the color c. -/
def uniformC (c : Color) (m : TempMap) : Prop := ∀ p ∈ m, p.2 = c

/-- Staging a list of keys with a fixed color, in order. -/
def foldStage (K : List ℤ) (c : Color) (m : TempMap) : TempMap :=
  K.foldl (fun m2 k => mapSet m2 k c) m

/-- Key list staged by one setPixel call. -/
def spKeys (W H : ℤ) (p : ℚ × ℚ) : List ℤ :=
  if p.1 < 0 ∨ (W : ℚ) ≤ p.1 ∨ p.2 < 0 ∨ (H : ℚ) ≤ p.2 then []
  else [jsRound p.2 * W + jsRound p.1]

/-- Effect on the pending map of one drawLine loop body at integer
point (x, y) (a single staged pixel, or a staged thick dot), obtained
by running the body on a probe state. -/
def bodyTemp (W H : ℤ) (c : Color) (th : ℚ) (x y : ℤ) (m : TempMap) : TempMap :=
  (bresBody W H c x y [] ⟨true, th, m, 1⟩).st.temp

/-- Effect on the pending map of one suppressed drawLine call. -/
def lineTemp (W H : ℤ) (c : Color) (th : ℚ) (a b : ℚ × ℚ) (m : TempMap) : TempMap :=
  (drawLine W H [] ⟨true, th, m, 1⟩ a b c).st.temp

/-- Effect on the pending map of a whole suppressed drawPath segment
loop (lastP is the point the next segment starts from). -/
def segTemp (W H : ℤ) (c : Color) (th : ℚ) :
    List (ℚ × ℚ) → (ℚ × ℚ) → TempMap → TempMap
  | [], _, m => m
  | p :: rest, lastP, m => segTemp W H c th rest p (lineTemp W H c th lastP p m)

/-- Remove immediate repetitions of a point from a point list. -/
def dedupAdj : List (ℚ × ℚ) → List (ℚ × ℚ)
  | [] => []
  | [a] => [a]
  | a :: b :: r => if a = b then dedupAdj (b :: r) else a :: dedupAdj (b :: r)

/-- Normal form of a path staging: a single staged body for a
degenerate one-point path, else the segment chain. -/
def nsTemp (W H : ℤ) (c : Color) (th : ℚ) :
    List (ℚ × ℚ) → TempMap → TempMap
  | [], m => m
  | [a], m => bodyTemp W H c th (jsRound a.1) (jsRound a.2) m
  | a :: b :: r, m => nsTemp W H c th (b :: r) (lineTemp W H c th a b m)

/-- The 4 bytes of pixel i of a buffer (row-major RGBA). -/
def pixAt (buf : Buffer) (i : ℤ) : ℕ × ℕ × ℕ × ℕ :=
  (buf.getD (i * 4).toNat 0, buf.getD (i * 4 + 1).toNat 0,
   buf.getD (i * 4 + 2).toNat 0, buf.getD (i * 4 + 3).toNat 0)

/-- Overwrite the 4 bytes of pixel i. -/
def writePix (buf : Buffer) (i : ℤ) (v : ℕ × ℕ × ℕ × ℕ) : Buffer :=
  writeByte (writeByte (writeByte (writeByte buf
    (i * 4) v.1) (i * 4 + 1) v.2.1) (i * 4 + 2) v.2.2.1) (i * 4 + 3) v.2.2.2

/-- Stored result of blending the normalized color nc over a pixel
currently holding the byte quadruple p (the arithmetic of Image.add
followed by the clamped store of Image.set). -/
def blendBytes (p : ℕ × ℕ × ℕ × ℕ) (nc : FullColor) : ℕ × ℕ × ℕ × ℕ :=
  let alpha := jdivq nc.2.2.2 255
  let alphaC := jsub (some 1) alpha
  (toUint8Clamp (jnRound (jadd (jmul (some (p.1 : ℚ)) alphaC) (jmul nc.1 alpha))),
   toUint8Clamp (jnRound (jadd (jmul (some (p.2.1 : ℚ)) alphaC) (jmul nc.2.1 alpha))),
   toUint8Clamp (jnRound (jadd (jmul (some (p.2.2.1 : ℚ)) alphaC) (jmul nc.2.2.1 alpha))),
   toUint8Clamp (jadd (some (p.2.2.2 : ℚ)) (jmul nc.2.2.2 alphaC)))

/-! Basic lemmas. -/

theorem jsRound_intCast (k : ℤ) : jsRound (k : ℚ) = k := by
  have h2 : (⌊(1 / 2 : ℚ)⌋ : ℤ) = 0 := by decide
  unfold jsRound
  rw [Int.floor_int_add, h2, add_zero]

theorem toUint8Clamp_intCast (k : ℤ) (h0 : 0 ≤ k) (h255 : k ≤ 255) :
    toUint8Clamp (some (k : ℚ)) = k.toNat := by
  simp only [toUint8Clamp, Int.floor_intCast, sub_self]
  split_ifs with h1 h2 h3 h4 h5
  · have : k = 0 := le_antisymm (by exact_mod_cast h1) h0
    omega
  · have : k = 255 := le_antisymm h255 (by exact_mod_cast h2)
    omega
  · exact absurd h3 (by norm_num)
  · rfl
  · exact absurd h4 (by norm_num)
  · exact absurd h4 (by norm_num)

theorem list_set_self (l : List ℕ) (n : ℕ) (v : ℕ) (h : l.get? n = some v) :
    l.set n v = l := by
  induction l generalizing n with
  | nil => simp
  | cons a t ih =>
    cases n with
    | zero => simp_all
    | succ n => simp_all [List.set]

theorem lt_toNatCeil_succ (q : ℚ) : q < (((⌈q⌉ + 1).toNat : ℕ) : ℚ) := by
  rcases le_or_lt 0 (⌈q⌉ + 1) with h | h
  · have h5 : ((⌈q⌉ + 1).toNat : ℤ) = ⌈q⌉ + 1 := Int.toNat_of_nonneg h
    have h6 : (((⌈q⌉ + 1).toNat : ℕ) : ℚ) = ((⌈q⌉ : ℤ) : ℚ) + 1 := by
      rw [← Int.cast_natCast, h5]
      push_cast
      ring
    rw [h6]
    have h1 : q ≤ (⌈q⌉ : ℚ) := Int.le_ceil q
    linarith
  · have h1 : ⌈q⌉ ≤ -1 := by omega
    have h2 : q ≤ (⌈q⌉ : ℚ) := Int.le_ceil q
    have h3 : (⌈q⌉ : ℚ) ≤ -1 := by exact_mod_cast h1
    have h4 : (⌈q⌉ + 1).toNat = 0 := by omega
    rw [h4]
    push_cast
    linarith

/-! Lemmas about the pending-write map. -/

theorem keysOf_mapSet (m : TempMap) (k : ℤ) (c : Color) :
    keysOf (mapSet m k c) = if m.any (fun p => p.1 = k) then keysOf m else keysOf m ++ [k] := by
  unfold mapSet keysOf
  split_ifs with h
  · rw [List.map_map]
    congr 1
    funext p
    by_cases hp : p.1 = k <;> simp [hp]
  · simp

theorem mem_keysOf_mapSet_self (m : TempMap) (k : ℤ) (c : Color) :
    k ∈ keysOf (mapSet m k c) := by
  rw [keysOf_mapSet]
  split_ifs with h
  · rcases List.any_eq_true.mp h with ⟨p, hp, he⟩
    have : p.1 = k := by simpa using he
    exact this ▸ List.mem_map_of_mem Prod.fst hp
  · simp

theorem mem_keysOf_mapSet_of_mem (m : TempMap) (k j : ℤ) (c : Color)
    (h : j ∈ keysOf m) : j ∈ keysOf (mapSet m k c) := by
  rw [keysOf_mapSet]
  split_ifs <;> simp [h]

theorem nodup_keysOf_mapSet (m : TempMap) (k : ℤ) (c : Color)
    (h : (keysOf m).Nodup) : (keysOf (mapSet m k c)).Nodup := by
  rw [keysOf_mapSet]
  split_ifs with ha
  · exact h
  · rw [List.nodup_append]
    refine ⟨h, List.nodup_singleton k, ?_⟩
    intro j hj hk
    have hjk : j = k := by simpa using hk
    subst hjk
    rcases List.mem_map.mp hj with ⟨p, hp, hpk⟩
    have : m.any (fun p => p.1 = j) = true := List.any_eq_true.mpr ⟨p, hp, by simp [hpk]⟩
    simp [this] at ha

theorem uniformC_mapSet (m : TempMap) (k : ℤ) (c : Color)
    (h : uniformC c m) : uniformC c (mapSet m k c) := by
  unfold mapSet
  split_ifs with ha
  · intro p hp
    rcases List.mem_map.mp hp with ⟨q, hq, he⟩
    by_cases hqk : q.1 = k
    · simp [hqk] at he
      rw [← he]
    · simp [hqk] at he
      exact he ▸ h q hq
  · intro p hp
    rcases List.mem_append.mp hp with hp | hp
    · exact h p hp
    · simp at hp
      simp [hp]

theorem nonnegKeys_mapSet (m : TempMap) (k : ℤ) (c : Color)
    (h : ∀ p ∈ m, 0 ≤ p.1) (hk : 0 ≤ k) : ∀ p ∈ mapSet m k c, 0 ≤ p.1 := by
  unfold mapSet
  split_ifs with ha
  · intro p hp
    rcases List.mem_map.mp hp with ⟨q, hq, he⟩
    by_cases hqk : q.1 = k
    · simp [hqk] at he
      rw [← he]
      exact hk
    · simp [hqk] at he
      exact he ▸ h q hq
  · intro p hp
    rcases List.mem_append.mp hp with hp | hp
    · exact h p hp
    · simp at hp
      simp [hp, hk]

theorem mapSet_of_mem_uniform (m : TempMap) (k : ℤ) (c : Color)
    (hu : uniformC c m) (hk : k ∈ keysOf m) : mapSet m k c = m := by
  unfold mapSet
  rcases List.mem_map.mp hk with ⟨p, hp, hpk⟩
  have ha : m.any (fun p => p.1 = k) = true := List.any_eq_true.mpr ⟨p, hp, by simp [hpk]⟩
  rw [if_pos ha]
  have : ∀ q ∈ m, (if q.1 = k then ((k, c) : ℤ × Color) else q) = q := by
    intro q hq
    by_cases hqk : q.1 = k
    · have h2 : q.2 = c := hu q hq
      simp [hqk]
      rw [← hqk, ← h2]
    · simp [hqk]
  rw [List.map_congr_left this]
  simp

/-! Lemmas about foldStage. -/

theorem foldStage_nil (c : Color) (m : TempMap) : foldStage [] c m = m := rfl

theorem foldStage_cons (k : ℤ) (K : List ℤ) (c : Color) (m : TempMap) :
    foldStage (k :: K) c m = foldStage K c (mapSet m k c) := rfl

theorem foldStage_append (K1 K2 : List ℤ) (c : Color) (m : TempMap) :
    foldStage (K1 ++ K2) c m = foldStage K2 c (foldStage K1 c m) :=
  List.foldl_append _ _ _ _

theorem uniformC_foldStage (K : List ℤ) (c : Color) (m : TempMap)
    (h : uniformC c m) : uniformC c (foldStage K c m) := by
  induction K generalizing m with
  | nil => exact h
  | cons k K ih => exact ih _ (uniformC_mapSet m k c h)

theorem mem_keysOf_foldStage_of_mem (K : List ℤ) (c : Color) (m : TempMap)
    (j : ℤ) (h : j ∈ keysOf m) : j ∈ keysOf (foldStage K c m) := by
  induction K generalizing m with
  | nil => exact h
  | cons k K ih => exact ih _ (mem_keysOf_mapSet_of_mem m k j c h)

theorem mem_keysOf_foldStage_of_memK (K : List ℤ) (c : Color) (m : TempMap)
    (j : ℤ) (h : j ∈ K) : j ∈ keysOf (foldStage K c m) := by
  induction K generalizing m with
  | nil => cases h
  | cons k K ih =>
    rcases List.mem_cons.mp h with rfl | h
    · exact mem_keysOf_foldStage_of_mem K c _ j (mem_keysOf_mapSet_self m j c)
    · exact ih _ h

theorem nodup_keysOf_foldStage (K : List ℤ) (c : Color) (m : TempMap)
    (h : (keysOf m).Nodup) : (keysOf (foldStage K c m)).Nodup := by
  induction K generalizing m with
  | nil => exact h
  | cons k K ih => exact ih _ (nodup_keysOf_mapSet m k c h)

theorem nonnegKeys_foldStage (K : List ℤ) (c : Color) (m : TempMap)
    (h : ∀ p ∈ m, 0 ≤ p.1) (hK : ∀ k ∈ K, 0 ≤ k) :
    ∀ p ∈ foldStage K c m, 0 ≤ p.1 := by
  induction K generalizing m with
  | nil => exact h
  | cons k K ih =>
    exact ih _ (nonnegKeys_mapSet m k c h (hK k (by simp)))
      (fun j hj => hK j (by simp [hj]))

theorem foldStage_eq_self (K : List ℤ) (c : Color) (m : TempMap)
    (hu : uniformC c m) (hK : ∀ k ∈ K, k ∈ keysOf m) : foldStage K c m = m := by
  induction K with
  | nil => rfl
  | cons k K ih =>
    rw [foldStage_cons, mapSet_of_mem_uniform m k c hu (hK k (by simp))]
    exact ih fun j hj => hK j (by simp [hj])

theorem foldStage_idem (K : List ℤ) (c : Color) (m : TempMap)
    (hu : uniformC c m) : foldStage K c (foldStage K c m) = foldStage K c m :=
  foldStage_eq_self K c _ (uniformC_foldStage K c m hu)
    fun k hk => mem_keysOf_foldStage_of_memK K c m k hk

/-! Characterization of setPixel in terms of staged keys. -/

theorem spKeys_nonneg (W H : ℤ) (p : ℚ × ℚ) : ∀ k ∈ spKeys W H p, 0 ≤ k := by
  unfold spKeys
  split_ifs with h
  · simp
  · push_neg at h
    obtain ⟨h1, h2, h3, h4⟩ := h
    intro k hk
    have hk2 : k = jsRound p.2 * W + jsRound p.1 := by simpa using hk
    subst hk2
    have hx : 0 ≤ jsRound p.1 := by
      have : (0 : ℚ) ≤ p.1 + 1 / 2 := by linarith
      exact Int.le_floor.mpr (by push_cast; linarith)
    have hy : 0 ≤ jsRound p.2 := by
      exact Int.le_floor.mpr (by push_cast; linarith)
    have hW : (0 : ℚ) < (W : ℚ) := lt_of_le_of_lt h1 h2
    have hW2 : 0 ≤ W := by exact_mod_cast le_of_lt hW
    positivity

theorem setPixelD_eq (W H : ℤ) (st : DrawerState) (p : ℚ × ℚ) (c : Color) :
    setPixelD W H st p c = { st with temp := foldStage (spKeys W H p) c st.temp } := by
  unfold setPixelD spKeys
  split_ifs with h
  · rfl
  · rfl

/-! Characterizations of the staging loops: each loop leaves every
state component but the pending map unchanged, stages a key list that
does not depend on the incoming state, and either returns normally or
runs out of fuel. -/

theorem spanLoop_char (W H : ℤ) (c : Color) (ya yb hi : ℚ) :
    ∀ (fuel : ℕ) (i : ℚ), ∃ (er : Option String) (K : List ℤ),
      (er = none ∨ er = some "nontermination") ∧ (∀ k ∈ K, 0 ≤ k) ∧
      ∀ st : DrawerState,
        spanLoop W H c ya yb hi fuel i st = (er, { st with temp := foldStage K c st.temp }) := by
  intro fuel
  induction fuel with
  | zero => exact fun i => ⟨some "nontermination", [], Or.inr rfl, by simp, fun st => rfl⟩
  | succ fuel ih =>
    intro i
    by_cases h : i ≤ hi
    · obtain ⟨er, K, her, hK, hst⟩ := ih (i + 1)
      refine ⟨er, spKeys W H (i, ya) ++ spKeys W H (i, yb) ++ K, her, ?_, ?_⟩
      · intro k hk
        rcases List.mem_append.mp hk with hk | hk
        · rcases List.mem_append.mp hk with hk | hk
          · exact spKeys_nonneg W H _ k hk
          · exact spKeys_nonneg W H _ k hk
        · exact hK k hk
      · intro st
        simp only [spanLoop, if_pos h, setPixelD_eq]
        rw [hst]
        simp only [foldStage_append]
    · refine ⟨none, [], Or.inl rfl, by simp, fun st => ?_⟩
      simp only [spanLoop, if_neg h]
      rfl

theorem spanLoop_none (W H : ℤ) (c : Color) (ya yb hi : ℚ) :
    ∀ (fuel : ℕ) (i : ℚ) (st : DrawerState), hi < i + (fuel : ℚ) →
      (spanLoop W H c ya yb hi (fuel + 1) i st).1 = none := by
  intro fuel
  induction fuel with
  | zero =>
    intro i st h
    push_cast at h
    have h2 : ¬ i ≤ hi := by linarith
    simp only [spanLoop, if_neg h2]
  | succ fuel ih =>
    intro i st h
    by_cases h2 : i ≤ hi
    · simp only [spanLoop, if_pos h2]
      apply ih
      push_cast at h ⊢
      linarith
    · simp only [spanLoop, if_neg h2]

theorem rowLoop_char (W H : ℤ) (c : Color) (yy hi : ℚ) :
    ∀ (fuel : ℕ) (i : ℚ), ∃ (er : Option String) (K : List ℤ),
      (er = none ∨ er = some "nontermination") ∧ (∀ k ∈ K, 0 ≤ k) ∧
      ∀ st : DrawerState,
        rowLoop W H c yy hi fuel i st = (er, { st with temp := foldStage K c st.temp }) := by
  intro fuel
  induction fuel with
  | zero => exact fun i => ⟨some "nontermination", [], Or.inr rfl, by simp, fun st => rfl⟩
  | succ fuel ih =>
    intro i
    by_cases h : i ≤ hi
    · obtain ⟨er, K, her, hK, hst⟩ := ih (i + 1)
      refine ⟨er, spKeys W H (i, yy) ++ K, her, ?_, ?_⟩
      · intro k hk
        rcases List.mem_append.mp hk with hk | hk
        · exact spKeys_nonneg W H _ k hk
        · exact hK k hk
      · intro st
        simp only [rowLoop, if_pos h, setPixelD_eq]
        rw [hst]
        simp only [foldStage_append]
    · refine ⟨none, [], Or.inl rfl, by simp, fun st => ?_⟩
      simp only [rowLoop, if_neg h]
      rfl

theorem rowLoop_none (W H : ℤ) (c : Color) (yy hi : ℚ) :
    ∀ (fuel : ℕ) (i : ℚ) (st : DrawerState), hi < i + (fuel : ℚ) →
      (rowLoop W H c yy hi (fuel + 1) i st).1 = none := by
  intro fuel
  induction fuel with
  | zero =>
    intro i st h
    push_cast at h
    have h2 : ¬ i ≤ hi := by linarith
    simp only [rowLoop, if_neg h2]
  | succ fuel ih =>
    intro i st h
    by_cases h2 : i ≤ hi
    · simp only [rowLoop, if_pos h2]
      apply ih
      push_cast at h ⊢
      linarith
    · simp only [rowLoop, if_neg h2]

theorem vspanLoop_char (W H : ℤ) (c : Color) (xa xb hi : ℚ) :
    ∀ (fuel : ℕ) (i : ℚ), ∃ (er : Option String) (K : List ℤ),
      (er = none ∨ er = some "nontermination") ∧ (∀ k ∈ K, 0 ≤ k) ∧
      ∀ st : DrawerState,
        vspanLoop W H c xa xb hi fuel i st = (er, { st with temp := foldStage K c st.temp }) := by
  intro fuel
  induction fuel with
  | zero => exact fun i => ⟨some "nontermination", [], Or.inr rfl, by simp, fun st => rfl⟩
  | succ fuel ih =>
    intro i
    by_cases h : i ≤ hi
    · obtain ⟨er, K, her, hK, hst⟩ := ih (i + 1)
      refine ⟨er, spKeys W H (xa, i) ++ spKeys W H (xb, i) ++ K, her, ?_, ?_⟩
      · intro k hk
        rcases List.mem_append.mp hk with hk | hk
        · rcases List.mem_append.mp hk with hk | hk
          · exact spKeys_nonneg W H _ k hk
          · exact spKeys_nonneg W H _ k hk
        · exact hK k hk
      · intro st
        simp only [vspanLoop, if_pos h, setPixelD_eq]
        rw [hst]
        simp only [foldStage_append]
    · refine ⟨none, [], Or.inl rfl, by simp, fun st => ?_⟩
      simp only [vspanLoop, if_neg h]
      rfl

theorem circLoop_char (W H : ℤ) (xc yc : ℚ) (c : Color) :
    ∀ (fuel : ℕ) (x : ℤ) (y d : ℚ), ∃ (er : Option String) (K : List ℤ),
      (er = none ∨ er = some "nontermination") ∧ (∀ k ∈ K, 0 ≤ k) ∧
      ∀ st : DrawerState,
        circLoop W H xc yc c fuel x y d st = (er, { st with temp := foldStage K c st.temp }) := by
  intro fuel
  induction fuel with
  | zero => exact fun x y d => ⟨some "nontermination", [], Or.inr rfl, by simp, fun st => rfl⟩
  | succ fuel ih =>
    intro x y d
    by_cases h : (x : ℚ) ≤ y
    · by_cases hd : 0 < d
      · obtain ⟨er, K, her, hK, hst⟩ := ih (x + 1) (y - 1) (d + 4 * ((x : ℚ) - (y - 1)) + 10)
        refine ⟨er, spKeys W H (xc + (x : ℚ), yc + y) ++ (spKeys W H (xc - (x : ℚ), yc + y) ++
          (spKeys W H (xc + (x : ℚ), yc - y) ++ (spKeys W H (xc - (x : ℚ), yc - y) ++
          (spKeys W H (xc + y, yc + (x : ℚ)) ++ (spKeys W H (xc - y, yc + (x : ℚ)) ++
          (spKeys W H (xc + y, yc - (x : ℚ)) ++ (spKeys W H (xc - y, yc - (x : ℚ)) ++ K))))))),
          her, ?_, ?_⟩
        · intro k hk
          simp only [List.mem_append] at hk
          rcases hk with hk | hk | hk | hk | hk | hk | hk | hk | hk
          all_goals first
            | exact spKeys_nonneg W H _ k hk
            | exact hK k hk
        · intro st
          simp only [circLoop, if_pos h, if_pos hd, setPixelD_eq]
          rw [hst]
          simp only [foldStage_append]
      · obtain ⟨er, K, her, hK, hst⟩ := ih (x + 1) y (d + 4 * (x : ℚ) + 6)
        refine ⟨er, spKeys W H (xc + (x : ℚ), yc + y) ++ (spKeys W H (xc - (x : ℚ), yc + y) ++
          (spKeys W H (xc + (x : ℚ), yc - y) ++ (spKeys W H (xc - (x : ℚ), yc - y) ++
          (spKeys W H (xc + y, yc + (x : ℚ)) ++ (spKeys W H (xc - y, yc + (x : ℚ)) ++
          (spKeys W H (xc + y, yc - (x : ℚ)) ++ (spKeys W H (xc - y, yc - (x : ℚ)) ++ K))))))),
          her, ?_, ?_⟩
        · intro k hk
          simp only [List.mem_append] at hk
          rcases hk with hk | hk | hk | hk | hk | hk | hk | hk | hk
          all_goals first
            | exact spKeys_nonneg W H _ k hk
            | exact hK k hk
        · intro st
          simp only [circLoop, if_pos h, if_neg hd, setPixelD_eq]
          rw [hst]
          simp only [foldStage_append]
    · refine ⟨none, [], Or.inl rfl, by simp, fun st => ?_⟩
      simp only [circLoop, if_neg h]
      rfl

theorem fcLoop_char (W H : ℤ) (xc yc : ℚ) (c : Color) :
    ∀ (fuel : ℕ) (x : ℤ) (y d : ℚ), ∃ (er : Option String) (K : List ℤ),
      (er = none ∨ er = some "nontermination") ∧ (∀ k ∈ K, 0 ≤ k) ∧
      ∀ st : DrawerState,
        fcLoop W H xc yc c fuel x y d st = (er, { st with temp := foldStage K c st.temp }) := by
  intro fuel
  induction fuel with
  | zero => exact fun x y d => ⟨some "nontermination", [], Or.inr rfl, by simp, fun st => rfl⟩
  | succ fuel ih =>
    intro x y d
    by_cases h : (x : ℚ) ≤ y
    · obtain ⟨er1, K1, her1, hK1, h1⟩ := spanLoop_char W H c (yc + y) (yc - y) (xc + (x : ℚ))
        (fuelFor (xc - (x : ℚ)) (xc + (x : ℚ))) (xc - (x : ℚ))
      rcases her1 with rfl | rfl
      · obtain ⟨er2, K2, her2, hK2, h2⟩ := spanLoop_char W H c (yc + (x : ℚ)) (yc - (x : ℚ))
          (xc + y) (fuelFor (xc - y) (xc + y)) (xc - y)
        rcases her2 with rfl | rfl
        · by_cases hd : 0 < d
          · obtain ⟨er, K, her, hK, hst⟩ := ih (x + 1) (y - 1) (d + 4 * ((x : ℚ) - (y - 1)) + 10)
            refine ⟨er, K1 ++ (K2 ++ K), her, ?_, ?_⟩
            · intro k hk
              simp only [List.mem_append] at hk
              rcases hk with hk | hk | hk
              · exact hK1 k hk
              · exact hK2 k hk
              · exact hK k hk
            · intro st
              simp only [fcLoop, if_pos h, if_pos hd, h1, h2, hst]
              simp only [foldStage_append]
          · obtain ⟨er, K, her, hK, hst⟩ := ih (x + 1) y (d + 4 * (x : ℚ) + 6)
            refine ⟨er, K1 ++ (K2 ++ K), her, ?_, ?_⟩
            · intro k hk
              simp only [List.mem_append] at hk
              rcases hk with hk | hk | hk
              · exact hK1 k hk
              · exact hK2 k hk
              · exact hK k hk
            · intro st
              simp only [fcLoop, if_pos h, if_neg hd, h1, h2, hst]
              simp only [foldStage_append]
        · refine ⟨some "nontermination", K1 ++ K2, Or.inr rfl, ?_, ?_⟩
          · intro k hk
            rcases List.mem_append.mp hk with hk | hk
            · exact hK1 k hk
            · exact hK2 k hk
          · intro st
            simp only [fcLoop, if_pos h, h1, h2]
            simp only [foldStage_append]
      · refine ⟨some "nontermination", K1, Or.inr rfl, hK1, fun st => ?_⟩
        simp only [fcLoop, if_pos h, h1]
    · refine ⟨none, [], Or.inl rfl, by simp, fun st => ?_⟩
      simp only [fcLoop, if_neg h]
      rfl

theorem fcLoop_none (W H : ℤ) (xc yc : ℚ) (c : Color) :
    ∀ (fuel : ℕ) (x : ℤ) (y d : ℚ) (st : DrawerState), y < (x : ℚ) + (fuel : ℚ) →
      (fcLoop W H xc yc c (fuel + 1) x y d st).1 = none := by
  intro fuel
  induction fuel with
  | zero =>
    intro x y d st h
    push_cast at h
    have h2 : ¬ (x : ℚ) ≤ y := by linarith
    simp only [fcLoop, if_neg h2]
  | succ fuel ih =>
    intro x y d st h
    by_cases h2 : (x : ℚ) ≤ y
    · have hs1 : (spanLoop W H c (yc + y) (yc - y) (xc + (x : ℚ))
          (fuelFor (xc - (x : ℚ)) (xc + (x : ℚ))) (xc - (x : ℚ)) st).1 = none := by
        apply spanLoop_none
        linarith [lt_toNatCeil_succ ((xc + (x : ℚ)) - (xc - (x : ℚ)))]
      obtain ⟨er1, K1, her1, hK1, h1⟩ := spanLoop_char W H c (yc + y) (yc - y) (xc + (x : ℚ))
        (fuelFor (xc - (x : ℚ)) (xc + (x : ℚ))) (xc - (x : ℚ))
      rw [h1 st] at hs1
      subst hs1
      have hs2 : ∀ st2 : DrawerState, (spanLoop W H c (yc + (x : ℚ)) (yc - (x : ℚ)) (xc + y)
          (fuelFor (xc - y) (xc + y)) (xc - y) st2).1 = none := by
        intro st2
        apply spanLoop_none
        linarith [lt_toNatCeil_succ ((xc + y) - (xc - y))]
      obtain ⟨er2, K2, her2, hK2, h2eq⟩ := spanLoop_char W H c (yc + (x : ℚ)) (yc - (x : ℚ))
        (xc + y) (fuelFor (xc - y) (xc + y)) (xc - y)
      have := hs2 { st with temp := foldStage K1 c st.temp }
      rw [h2eq _] at this
      subst this
      by_cases hd : 0 < d
      · simp only [fcLoop, if_pos h2, if_pos hd, h1, h2eq]
        apply ih
        push_cast at h ⊢
        linarith
      · simp only [fcLoop, if_pos h2, if_neg hd, h1, h2eq]
        apply ih
        push_cast at h ⊢
        linarith
    · simp only [fcLoop, if_neg h2]

/-! The drawLine loop body: under a nonnegative suppression counter it
never throws, never touches the buffer, and only stages keys. -/

theorem bresBody_char (W H : ℤ) (c : Color) (th : ℚ) (x0 y0 : ℤ) :
    ∃ K : List ℤ, (∀ k ∈ K, 0 ≤ k) ∧
      ∀ (bl : Bool) (fd : ℤ) (m : TempMap) (buf : Buffer), 0 ≤ fd →
        bresBody W H c x0 y0 buf ⟨bl, th, m, fd⟩ =
          ⟨none, buf, ⟨bl, th, foldStage K c m, fd⟩⟩ := by
  by_cases hth : 1 < th
  · obtain ⟨er, K, her, hK, hfc⟩ := fcLoop_char W H (x0 : ℚ) (y0 : ℚ) c
      (fuelFor 0 (th / 2)) 0 (th / 2) (3 - 2 * (th / 2))
    have hfuel : fuelFor 0 (th / 2) = (⌈th / 2 - 0⌉ + 1).toNat + 1 := rfl
    have hnone : er = none := by
      have h0 : (th / 2 : ℚ) < (((0 : ℤ)) : ℚ) + (((⌈th / 2 - 0⌉ + 1).toNat : ℕ) : ℚ) := by
        have h1 := lt_toNatCeil_succ ((th / 2) - 0)
        push_cast
        linarith [h1]
      have h2 := fcLoop_none W H (x0 : ℚ) (y0 : ℚ) c ((⌈th / 2 - 0⌉ + 1).toNat) 0 (th / 2)
        (3 - 2 * (th / 2)) ⟨true, th, [], 1⟩ h0
      rw [hfuel] at hfc
      rw [hfc _] at h2
      exact h2
    subst hnone
    refine ⟨K, hK, ?_⟩
    intro bl fd m buf hfd
    have hne : fd + 1 ≠ 0 := by omega
    simp only [bresBody, drawFilledCircle, hfc]
    rw [if_pos hth]
    simp only [Res.bind, flush]
    rw [if_pos (by simpa using hne)]
    simp only [Res.bind]
    have h3 : fd + 1 - 1 = fd := by omega
    rw [h3]
  · refine ⟨spKeys W H ((x0 : ℚ), (y0 : ℚ)), spKeys_nonneg W H _, ?_⟩
    intro bl fd m buf hfd
    simp only [bresBody, setPixelD_eq]
    rw [if_neg hth]

theorem bodyTemp_char (W H : ℤ) (c : Color) (th : ℚ) (x0 y0 : ℤ) :
    ∃ K : List ℤ, (∀ k ∈ K, 0 ≤ k) ∧
      ∀ m : TempMap, bodyTemp W H c th x0 y0 m = foldStage K c m := by
  obtain ⟨K, hK, hb⟩ := bresBody_char W H c th x0 y0
  refine ⟨K, hK, fun m => ?_⟩
  unfold bodyTemp
  rw [hb true 1 m [] (by norm_num)]

theorem bresBody_eq (W H : ℤ) (c : Color) (th : ℚ) (x0 y0 : ℤ)
    (bl : Bool) (fd : ℤ) (m : TempMap) (buf : Buffer) (hfd : 0 ≤ fd) :
    bresBody W H c x0 y0 buf ⟨bl, th, m, fd⟩ =
      ⟨none, buf, ⟨bl, th, bodyTemp W H c th x0 y0 m, fd⟩⟩ := by
  obtain ⟨K, hK, hb⟩ := bresBody_char W H c th x0 y0
  have hp : bodyTemp W H c th x0 y0 m = foldStage K c m := by
    unfold bodyTemp
    rw [hb true 1 m [] (by norm_num)]
  rw [hb bl fd m buf hfd, hp]

theorem uniformC_bodyTemp (W H : ℤ) (c : Color) (th : ℚ) (x0 y0 : ℤ)
    (m : TempMap) (hu : uniformC c m) :
    uniformC c (bodyTemp W H c th x0 y0 m) := by
  obtain ⟨K, _, hc2⟩ := bodyTemp_char W H c th x0 y0
  rw [hc2]
  exact uniformC_foldStage K c m hu

theorem bodyTemp_idem (W H : ℤ) (c : Color) (th : ℚ) (x0 y0 : ℤ)
    (m : TempMap) (hu : uniformC c m) :
    bodyTemp W H c th x0 y0 (bodyTemp W H c th x0 y0 m) = bodyTemp W H c th x0 y0 m := by
  obtain ⟨K, _, hc2⟩ := bodyTemp_char W H c th x0 y0
  rw [hc2, hc2, foldStage_idem K c m hu]

theorem bresLoop_char (W H x1 y1 dx dy sx sy : ℤ) (c : Color) (th : ℚ) :
    ∀ (fuel : ℕ) (x0 y0 e : ℤ), ∃ (er : Option String) (K : List ℤ),
      (er = none ∨ er = some "nontermination") ∧ (∀ k ∈ K, 0 ≤ k) ∧
      ∀ (bl : Bool) (fd : ℤ) (m : TempMap) (buf : Buffer), 0 ≤ fd →
        bresLoop W H x1 y1 dx dy sx sy c fuel x0 y0 e buf ⟨bl, th, m, fd⟩ =
          ⟨er, buf, ⟨bl, th, foldStage K c m, fd⟩⟩ := by
  intro fuel
  induction fuel with
  | zero =>
    exact fun x0 y0 e =>
      ⟨some "nontermination", [], Or.inr rfl, by simp, fun bl fd m buf hfd => rfl⟩
  | succ fuel ih =>
    intro x0 y0 e
    obtain ⟨Kb, hKb, hbody⟩ := bodyTemp_char W H c th x0 y0
    by_cases hend : x0 = x1 ∧ y0 = y1
    · refine ⟨none, Kb, Or.inl rfl, hKb, fun bl fd m buf hfd => ?_⟩
      simp only [bresLoop]
      rw [bresBody_eq W H c th x0 y0 bl fd m buf hfd]
      simp only [Res.bind]
      rw [if_pos hend, hbody]
    · obtain ⟨er, K, her, hK, hrec⟩ := ih
        (if -dy < 2 * e then x0 + sx else x0)
        (if 2 * e < dx then y0 + sy else y0)
        (if 2 * e < dx then (if -dy < 2 * e then e - dy else e) + dx
         else (if -dy < 2 * e then e - dy else e))
      refine ⟨er, Kb ++ K, her, ?_, fun bl fd m buf hfd => ?_⟩
      · intro k hk
        rcases List.mem_append.mp hk with hk | hk
        · exact hKb k hk
        · exact hK k hk
      · simp only [bresLoop]
        rw [bresBody_eq W H c th x0 y0 bl fd m buf hfd]
        simp only [Res.bind]
        rw [if_neg hend]
        simp only [foldStage_append]
        by_cases hx : -dy < 2 * e
        · by_cases hy : 2 * e < dx
          · simp only [if_pos hx, if_pos hy] at hrec ⊢
            rw [hrec bl fd (bodyTemp W H c th x0 y0 m) buf hfd, hbody]
          · simp only [if_pos hx, if_neg hy] at hrec ⊢
            rw [hrec bl fd (bodyTemp W H c th x0 y0 m) buf hfd, hbody]
        · by_cases hy : 2 * e < dx
          · simp only [if_neg hx, if_pos hy] at hrec ⊢
            rw [hrec bl fd (bodyTemp W H c th x0 y0 m) buf hfd, hbody]
          · simp only [if_neg hx, if_neg hy] at hrec ⊢
            rw [hrec bl fd (bodyTemp W H c th x0 y0 m) buf hfd, hbody]

/-- With the standard Bresenham invariant, the loop reaches the
endpoint within dx + dy steps, stages its body there last, and never
runs out of the fuel drawLine passes. -/
theorem bresLoop_complete (W H x1 y1 dx dy sx sy : ℤ) (c : Color) (th : ℚ)
    (hsx : sx = 1 ∨ sx = -1) (hsy : sy = 1 ∨ sy = -1)
    (hdx : 0 ≤ dx) (hdy : 0 ≤ dy) :
    ∀ (fuel : ℕ) (x0 y0 e : ℤ),
      0 ≤ sx * (x1 - x0) → sx * (x1 - x0) ≤ dx →
      0 ≤ sy * (y1 - y0) → sy * (y1 - y0) ≤ dy →
      e = dx - dy + dy * (sx * (x1 - x0)) - dx * (sy * (y1 - y0)) →
      sx * (x1 - x0) + sy * (y1 - y0) < (fuel : ℤ) →
      ∃ K : List ℤ, (∀ k ∈ K, 0 ≤ k) ∧
        ∀ (bl : Bool) (fd : ℤ) (m : TempMap) (buf : Buffer), 0 ≤ fd →
          bresLoop W H x1 y1 dx dy sx sy c fuel x0 y0 e buf ⟨bl, th, m, fd⟩ =
            ⟨none, buf, ⟨bl, th, bodyTemp W H c th x1 y1 (foldStage K c m), fd⟩⟩ := by
  have hsx2 : sx * sx = 1 := by rcases hsx with rfl | rfl <;> norm_num
  have hsy2 : sy * sy = 1 := by rcases hsy with rfl | rfl <;> norm_num
  intro fuel
  induction fuel with
  | zero =>
    intro x0 y0 e hu0 hud hv0 hvd he hlt
    exfalso
    push_cast at hlt
    linarith
  | succ fuel ih =>
    intro x0 y0 e hu0 hud hv0 hvd he hlt
    by_cases hend : x0 = x1 ∧ y0 = y1
    · refine ⟨[], by simp, fun bl fd m buf hfd => ?_⟩
      simp only [bresLoop]
      rw [bresBody_eq W H c th x0 y0 bl fd m buf hfd]
      simp only [Res.bind]
      rw [if_pos hend, hend.1, hend.2]
      rfl
    · have hu_or : 1 ≤ sx * (x1 - x0) ∨ 1 ≤ sy * (y1 - y0) := by
        rcases not_and_or.mp hend with h | h
        · left
          rcases hsx with rfl | rfl <;> omega
        · right
          rcases hsy with rfl | rfl <;> omega
      have hxfire_u : -dy < 2 * e → 1 ≤ sx * (x1 - x0) := by
        intro hx
        by_contra hnot
        have hu_eq : sx * (x1 - x0) = 0 := by omega
        have hv1 : 1 ≤ sy * (y1 - y0) := by
          rcases hu_or with h | h
          · omega
          · exact h
        rw [he, hu_eq] at hx
        nlinarith [mul_nonneg hdx (by linarith : (0 : ℤ) ≤ sy * (y1 - y0) - 1)]
      have hyfire_v : 2 * e < dx → 1 ≤ sy * (y1 - y0) := by
        intro hy
        by_contra hnot
        have hv_eq : sy * (y1 - y0) = 0 := by omega
        have hu1 : 1 ≤ sx * (x1 - x0) := by
          rcases hu_or with h | h
          · exact h
          · omega
        rw [he, hv_eq] at hy
        nlinarith [mul_nonneg hdy (by linarith : (0 : ℤ) ≤ sx * (x1 - x0) - 1)]
      have hfire : -dy < 2 * e ∨ 2 * e < dx := by
        by_contra hno
        push_neg at hno
        obtain ⟨h1, h2⟩ := hno
        have hdx0 : dx = 0 := by linarith
        have hdy0 : dy = 0 := by linarith
        have hu_eq : sx * (x1 - x0) = 0 := by omega
        have hv_eq : sy * (y1 - y0) = 0 := by omega
        rcases hu_or with h | h <;> omega
      have hup : sx * (x1 - (x0 + sx)) = sx * (x1 - x0) - 1 := by
        linear_combination (-1 : ℤ) * hsx2
      have hvp : sy * (y1 - (y0 + sy)) = sy * (y1 - y0) - 1 := by
        linear_combination (-1 : ℤ) * hsy2
      obtain ⟨Kb, hKb, hbody⟩ := bodyTemp_char W H c th x0 y0
      by_cases hx : -dy < 2 * e
      · have hu1 := hxfire_u hx
        by_cases hy : 2 * e < dx
        · have hv1 := hyfire_v hy
          obtain ⟨K, hK, hrec⟩ := ih (x0 + sx) (y0 + sy) (e - dy + dx)
            (by rw [hup]; omega) (by rw [hup]; omega)
            (by rw [hvp]; omega) (by rw [hvp]; omega)
            (by rw [hup, hvp, he]; ring)
            (by rw [hup, hvp]; push_cast at hlt ⊢; linarith)
          refine ⟨Kb ++ K, ?_, fun bl fd m buf hfd => ?_⟩
          · intro k hk
            rcases List.mem_append.mp hk with hk | hk
            · exact hKb k hk
            · exact hK k hk
          · simp only [bresLoop]
            rw [bresBody_eq W H c th x0 y0 bl fd m buf hfd]
            simp only [Res.bind]
            rw [if_neg hend]
            simp only [if_pos hx, if_pos hy]
            rw [hrec bl fd (bodyTemp W H c th x0 y0 m) buf hfd, hbody]
            rw [foldStage_append]
        · obtain ⟨K, hK, hrec⟩ := ih (x0 + sx) y0 (e - dy)
            (by rw [hup]; omega) (by rw [hup]; omega) hv0 hvd
            (by rw [hup, he]; ring)
            (by rw [hup]; push_cast at hlt ⊢; linarith)
          refine ⟨Kb ++ K, ?_, fun bl fd m buf hfd => ?_⟩
          · intro k hk
            rcases List.mem_append.mp hk with hk | hk
            · exact hKb k hk
            · exact hK k hk
          · simp only [bresLoop]
            rw [bresBody_eq W H c th x0 y0 bl fd m buf hfd]
            simp only [Res.bind]
            rw [if_neg hend]
            simp only [if_pos hx, if_neg hy]
            rw [hrec bl fd (bodyTemp W H c th x0 y0 m) buf hfd, hbody]
            rw [foldStage_append]
      · have hy : 2 * e < dx := by
          rcases hfire with h | h
          · exact absurd h hx
          · exact h
        have hv1 := hyfire_v hy
        obtain ⟨K, hK, hrec⟩ := ih x0 (y0 + sy) (e + dx)
          hu0 hud
          (by rw [hvp]; omega) (by rw [hvp]; omega)
          (by rw [hvp, he]; ring)
          (by rw [hvp]; push_cast at hlt ⊢; linarith)
        refine ⟨Kb ++ K, ?_, fun bl fd m buf hfd => ?_⟩
        · intro k hk
          rcases List.mem_append.mp hk with hk | hk
          · exact hKb k hk
          · exact hK k hk
        · simp only [bresLoop]
          rw [bresBody_eq W H c th x0 y0 bl fd m buf hfd]
          simp only [Res.bind]
          rw [if_neg hend]
          simp only [if_neg hx, if_pos hy]
          rw [hrec bl fd (bodyTemp W H c th x0 y0 m) buf hfd, hbody]
          rw [foldStage_append]

theorem ite_sign_mul_eq_abs (p q : ℤ) :
    (if p < q then (1 : ℤ) else -1) * (q - p) = |q - p| := by
  split_ifs with h
  · rw [one_mul, abs_of_nonneg (by omega : (0 : ℤ) ≤ q - p)]
  · rw [abs_of_nonpos (by omega : q - p ≤ 0)]
    ring

/-- A suppressed drawLine call never throws, leaves the buffer and the
other state fields alone, and its staging ends with the body at the
rounded endpoint. -/
theorem drawLine_char (W H : ℤ) (c : Color) (th : ℚ) (a b : ℚ × ℚ) :
    ∃ K : List ℤ, (∀ k ∈ K, 0 ≤ k) ∧
      ∀ (bl : Bool) (fd : ℤ) (m : TempMap) (buf : Buffer), 1 ≤ fd →
        drawLine W H buf ⟨bl, th, m, fd⟩ a b c =
          ⟨none, buf, ⟨bl, th, bodyTemp W H c th (jsRound b.1) (jsRound b.2)
            (foldStage K c m), fd⟩⟩ := by
  have habs1 := ite_sign_mul_eq_abs (jsRound a.1) (jsRound b.1)
  have habs2 := ite_sign_mul_eq_abs (jsRound a.2) (jsRound b.2)
  obtain ⟨K, hK, hloop⟩ := bresLoop_complete W H (jsRound b.1) (jsRound b.2)
    (|jsRound b.1 - jsRound a.1|) (|jsRound b.2 - jsRound a.2|)
    (if jsRound a.1 < jsRound b.1 then 1 else -1)
    (if jsRound a.2 < jsRound b.2 then 1 else -1) c th
    (by split_ifs <;> simp) (by split_ifs <;> simp) (abs_nonneg _) (abs_nonneg _)
    ((|jsRound b.1 - jsRound a.1| + |jsRound b.2 - jsRound a.2|).toNat + 1)
    (jsRound a.1) (jsRound a.2)
    (|jsRound b.1 - jsRound a.1| - |jsRound b.2 - jsRound a.2|)
    (by rw [habs1]; exact abs_nonneg _) (by rw [habs1])
    (by rw [habs2]; exact abs_nonneg _) (by rw [habs2])
    (by rw [habs1, habs2]; ring)
    (by
      rw [habs1, habs2]
      have h1 : (0 : ℤ) ≤ |jsRound b.1 - jsRound a.1| + |jsRound b.2 - jsRound a.2| :=
        add_nonneg (abs_nonneg _) (abs_nonneg _)
      push_cast [Int.toNat_of_nonneg h1]
      linarith)
  refine ⟨K, hK, fun bl fd m buf hfd => ?_⟩
  simp only [drawLine]
  rw [hloop bl fd m buf (by omega)]
  simp only [Res.bind, flush]
  rw [if_pos (by simpa using (by omega : fd ≠ 0))]

theorem lineTemp_eq_char (W H : ℤ) (c : Color) (th : ℚ) (a b : ℚ × ℚ) :
    ∃ K : List ℤ, (∀ k ∈ K, 0 ≤ k) ∧
      ∀ m : TempMap, lineTemp W H c th a b m =
        bodyTemp W H c th (jsRound b.1) (jsRound b.2) (foldStage K c m) := by
  obtain ⟨K, hK, h⟩ := drawLine_char W H c th a b
  refine ⟨K, hK, fun m => ?_⟩
  unfold lineTemp
  rw [h true 1 m [] (le_refl 1)]

theorem drawLine_eq (W H : ℤ) (c : Color) (th : ℚ) (a b : ℚ × ℚ)
    (bl : Bool) (fd : ℤ) (m : TempMap) (buf : Buffer) (hfd : 1 ≤ fd) :
    drawLine W H buf ⟨bl, th, m, fd⟩ a b c =
      ⟨none, buf, ⟨bl, th, lineTemp W H c th a b m, fd⟩⟩ := by
  obtain ⟨K, hK, h⟩ := drawLine_char W H c th a b
  have hp : lineTemp W H c th a b m =
      bodyTemp W H c th (jsRound b.1) (jsRound b.2) (foldStage K c m) := by
    unfold lineTemp
    rw [h true 1 m [] (le_refl 1)]
  rw [h bl fd m buf hfd, hp]

theorem uniformC_lineTemp (W H : ℤ) (c : Color) (th : ℚ) (a b : ℚ × ℚ)
    (m : TempMap) (hu : uniformC c m) : uniformC c (lineTemp W H c th a b m) := by
  obtain ⟨K, _, h⟩ := lineTemp_eq_char W H c th a b
  rw [h]
  exact uniformC_bodyTemp W H c th _ _ _ (uniformC_foldStage K c m hu)

theorem lineTemp_end_absorb (W H : ℤ) (c : Color) (th : ℚ) (a b : ℚ × ℚ)
    (m : TempMap) (hu : uniformC c m) :
    bodyTemp W H c th (jsRound b.1) (jsRound b.2) (lineTemp W H c th a b m) =
      lineTemp W H c th a b m := by
  obtain ⟨K, _, h⟩ := lineTemp_eq_char W H c th a b
  rw [h m, bodyTemp_idem W H c th _ _ _ (uniformC_foldStage K c m hu)]

theorem lineTemp_self (W H : ℤ) (c : Color) (th : ℚ) (a : ℚ × ℚ) (m : TempMap) :
    lineTemp W H c th a a m = bodyTemp W H c th (jsRound a.1) (jsRound a.2) m := by
  unfold lineTemp
  simp only [drawLine, sub_self, abs_zero, add_zero, Int.toNat_zero, zero_add]
  simp only [bresLoop]
  rw [bresBody_eq W H c th (jsRound a.1) (jsRound a.2) true 1 m [] (by norm_num)]
  simp only [Res.bind]
  simp [flush]

theorem lineTemp_front_absorb (W H : ℤ) (c : Color) (th : ℚ) (a b : ℚ × ℚ)
    (m : TempMap) (hu : uniformC c m) :
    lineTemp W H c th a b (bodyTemp W H c th (jsRound a.1) (jsRound a.2) m) =
      lineTemp W H c th a b m := by
  unfold lineTemp
  simp only [drawLine]
  simp only [bresLoop]
  rw [bresBody_eq W H c th (jsRound a.1) (jsRound a.2) true 1
      (bodyTemp W H c th (jsRound a.1) (jsRound a.2) m) [] (by norm_num),
    bresBody_eq W H c th (jsRound a.1) (jsRound a.2) true 1 m [] (by norm_num)]
  rw [bodyTemp_idem W H c th _ _ m hu]

theorem nodup_keysOf_bodyTemp (W H : ℤ) (c : Color) (th : ℚ) (x y : ℤ)
    (m : TempMap) (h : (keysOf m).Nodup) : (keysOf (bodyTemp W H c th x y m)).Nodup := by
  obtain ⟨K, _, hc2⟩ := bodyTemp_char W H c th x y
  rw [hc2]
  exact nodup_keysOf_foldStage K c m h

theorem nonnegKeys_bodyTemp (W H : ℤ) (c : Color) (th : ℚ) (x y : ℤ)
    (m : TempMap) (h : ∀ p ∈ m, 0 ≤ p.1) : ∀ p ∈ bodyTemp W H c th x y m, 0 ≤ p.1 := by
  obtain ⟨K, hK, hc2⟩ := bodyTemp_char W H c th x y
  rw [hc2]
  exact nonnegKeys_foldStage K c m h hK

theorem nodup_keysOf_lineTemp (W H : ℤ) (c : Color) (th : ℚ) (a b : ℚ × ℚ)
    (m : TempMap) (h : (keysOf m).Nodup) : (keysOf (lineTemp W H c th a b m)).Nodup := by
  obtain ⟨K, _, hc2⟩ := lineTemp_eq_char W H c th a b
  rw [hc2]
  exact nodup_keysOf_bodyTemp W H c th _ _ _ (nodup_keysOf_foldStage K c m h)

theorem nonnegKeys_lineTemp (W H : ℤ) (c : Color) (th : ℚ) (a b : ℚ × ℚ)
    (m : TempMap) (h : ∀ p ∈ m, 0 ≤ p.1) : ∀ p ∈ lineTemp W H c th a b m, 0 ≤ p.1 := by
  obtain ⟨K, hK, hc2⟩ := lineTemp_eq_char W H c th a b
  rw [hc2]
  exact nonnegKeys_bodyTemp W H c th _ _ _ (nonnegKeys_foldStage K c m h hK)

/-! The dedup argument: back-to-back repeated points do not change the
staged map of a path. -/

theorem dedupAdj_head? (a : ℚ × ℚ) (r : List (ℚ × ℚ)) :
    (dedupAdj (a :: r)).head? = some a := by
  induction r generalizing a with
  | nil => rfl
  | cons b r ih =>
    simp only [dedupAdj]
    split_ifs with h
    · rw [ih b, h]
    · rfl

theorem nsTemp_absorb (W H : ℤ) (c : Color) (th : ℚ) (L : List (ℚ × ℚ))
    (b : ℚ × ℚ) (m : TempMap) (hh : L.head? = some b) (hu : uniformC c m) :
    nsTemp W H c th L (bodyTemp W H c th (jsRound b.1) (jsRound b.2) m) =
      nsTemp W H c th L m := by
  match L with
  | [] => cases hh
  | [x] =>
    have hx : x = b := by simpa using hh
    subst hx
    simp only [nsTemp]
    exact bodyTemp_idem W H c th _ _ m hu
  | x :: y :: r =>
    have hx : x = b := by simpa using hh
    subst hx
    simp only [nsTemp]
    rw [lineTemp_front_absorb W H c th x y m hu]

theorem segTemp_eq_nsTemp_dedup (W H : ℤ) (c : Color) (th : ℚ) :
    ∀ (rest : List (ℚ × ℚ)) (p0 : ℚ × ℚ) (m : TempMap), rest ≠ [] → uniformC c m →
      segTemp W H c th rest p0 m = nsTemp W H c th (dedupAdj (p0 :: rest)) m := by
  intro rest
  induction rest with
  | nil => intro p0 m h _; exact absurd rfl h
  | cons b r ih =>
    intro p0 m _ hu
    cases r with
    | nil =>
      simp only [segTemp, dedupAdj]
      split_ifs with h
      · subst h
        exact lineTemp_self W H c th p0 m
      · simp only [nsTemp]
        exact (lineTemp_end_absorb W H c th p0 b m hu).symm
    | cons q r2 =>
      have hne : (q :: r2 : List (ℚ × ℚ)) ≠ [] := by simp
      have hstep : segTemp W H c th (b :: q :: r2) p0 m =
          segTemp W H c th (q :: r2) b (lineTemp W H c th p0 b m) := rfl
      rw [hstep, ih b (lineTemp W H c th p0 b m) hne
        (uniformC_lineTemp W H c th p0 b m hu)]
      obtain ⟨t, ht⟩ : ∃ t, dedupAdj (b :: q :: r2) = b :: t := by
        have := dedupAdj_head? b (q :: r2)
        cases hd : dedupAdj (b :: q :: r2) with
        | nil => rw [hd] at this; cases this
        | cons x t =>
          rw [hd] at this
          simp at this
          exact ⟨t, by rw [this]⟩
      show nsTemp W H c th (dedupAdj (b :: q :: r2)) (lineTemp W H c th p0 b m) =
        nsTemp W H c th (dedupAdj (p0 :: b :: q :: r2)) m
      have hd2 : dedupAdj (p0 :: b :: q :: r2) =
          if p0 = b then dedupAdj (b :: q :: r2) else p0 :: dedupAdj (b :: q :: r2) := rfl
      rw [hd2]
      split_ifs with h
      · subst h
        rw [lineTemp_self W H c th p0 m]
        exact nsTemp_absorb W H c th _ p0 m (dedupAdj_head? p0 (q :: r2)) hu
      · rw [ht]
        rfl

theorem pathLoop_eq (W H : ℤ) (c : Color) (th : ℚ) :
    ∀ (rest : List (ℚ × ℚ)) (p0 : ℚ × ℚ) (bl : Bool) (fd : ℤ) (m : TempMap)
      (buf : Buffer), 1 ≤ fd →
      pathLoop W H c rest p0 buf ⟨bl, th, m, fd⟩ =
        ⟨none, buf, ⟨bl, th, segTemp W H c th rest p0 m, fd⟩⟩ := by
  intro rest
  induction rest with
  | nil => intro p0 bl fd m buf _; rfl
  | cons p rest ih =>
    intro p0 bl fd m buf hfd
    show (drawLine W H buf ⟨bl, th, m, fd⟩ p0 p c).bind _ = _
    rw [drawLine_eq W H c th p0 p bl fd m buf hfd]
    simp only [Res.bind]
    exact ih p bl fd (lineTemp W H c th p0 p m) buf hfd

/-! Byte-level lemmas about the buffer. -/

theorem length_writeByte (buf : Buffer) (i : ℤ) (v : ℕ) :
    (writeByte buf i v).length = buf.length := by
  unfold writeByte
  split_ifs <;> simp

theorem get?_writeByte_ne (buf : Buffer) (i : ℤ) (v : ℕ) (n : ℕ)
    (h : ¬(0 ≤ i ∧ i.toNat = n)) : (writeByte buf i v).get? n = buf.get? n := by
  unfold writeByte
  split_ifs with h0
  · exact List.get?_set_ne v buf (fun he => h ⟨h0, he⟩)
  · rfl

theorem get?_writeByte_self (buf : Buffer) (i : ℤ) (v : ℕ) (h0 : 0 ≤ i)
    (hlt : i.toNat < buf.length) : (writeByte buf i v).get? i.toNat = some v := by
  unfold writeByte
  rw [if_pos h0]
  exact List.get?_set_eq_of_lt v hlt

theorem length_writePix (buf : Buffer) (k : ℤ) (v : ℕ × ℕ × ℕ × ℕ) :
    (writePix buf k v).length = buf.length := by
  unfold writePix
  rw [length_writeByte, length_writeByte, length_writeByte, length_writeByte]

theorem pixAt_writePix_ne (buf : Buffer) (k j : ℤ) (v : ℕ × ℕ × ℕ × ℕ)
    (hk : 0 ≤ k) (hj : 0 ≤ j) (hne : j ≠ k) :
    pixAt (writePix buf k v) j = pixAt buf j := by
  unfold pixAt writePix
  rw [List.getD_eq_get?, List.getD_eq_get?, List.getD_eq_get?, List.getD_eq_get?,
    List.getD_eq_get?, List.getD_eq_get?, List.getD_eq_get?, List.getD_eq_get?]
  rw [get?_writeByte_ne _ _ _ _ (by omega), get?_writeByte_ne _ _ _ _ (by omega),
    get?_writeByte_ne _ _ _ _ (by omega), get?_writeByte_ne _ _ _ _ (by omega),
    get?_writeByte_ne _ _ _ _ (by omega), get?_writeByte_ne _ _ _ _ (by omega),
    get?_writeByte_ne _ _ _ _ (by omega), get?_writeByte_ne _ _ _ _ (by omega),
    get?_writeByte_ne _ _ _ _ (by omega), get?_writeByte_ne _ _ _ _ (by omega),
    get?_writeByte_ne _ _ _ _ (by omega), get?_writeByte_ne _ _ _ _ (by omega),
    get?_writeByte_ne _ _ _ _ (by omega), get?_writeByte_ne _ _ _ _ (by omega),
    get?_writeByte_ne _ _ _ _ (by omega), get?_writeByte_ne _ _ _ _ (by omega)]

theorem pixAt_writePix_self (buf : Buffer) (k : ℤ) (v : ℕ × ℕ × ℕ × ℕ)
    (hk : 0 ≤ k) (hin : (k * 4 + 3).toNat < buf.length) :
    pixAt (writePix buf k v) k = v := by
  unfold pixAt writePix
  have l1 := length_writeByte (writeByte (writeByte buf (k * 4) v.1) (k * 4 + 1) v.2.1)
    (k * 4 + 2) v.2.2.1
  have l2 := length_writeByte (writeByte buf (k * 4) v.1) (k * 4 + 1) v.2.1
  have l3 := length_writeByte buf (k * 4) v.1
  rw [List.getD_eq_get?, List.getD_eq_get?, List.getD_eq_get?, List.getD_eq_get?]
  rw [get?_writeByte_ne _ _ _ _ (by omega),
    get?_writeByte_ne _ _ _ _ (by omega),
    get?_writeByte_ne _ _ _ _ (by omega),
    get?_writeByte_self _ _ _ (by omega) (by omega),
    get?_writeByte_ne _ _ _ _ (by omega),
    get?_writeByte_ne _ _ _ _ (by omega),
    get?_writeByte_self _ _ _ (by omega) (by omega),
    get?_writeByte_ne _ _ _ _ (by omega),
    get?_writeByte_self _ _ _ (by omega) (by omega)]
  have h4 : (writeByte (writeByte (writeByte (writeByte buf (k * 4) v.1) (k * 4 + 1) v.2.1)
      (k * 4 + 2) v.2.2.1) (k * 4 + 3) v.2.2.2).get? (k * 4 + 3).toNat = some v.2.2.2 :=
    get?_writeByte_self _ _ _ (by omega) (by rw [length_writeByte]; omega)
  rw [h4]
  rfl

theorem readByte_eq_getD (buf : Buffer) (j : ℤ) (h0 : 0 ≤ j)
    (hlt : j.toNat < buf.length) :
    readByte buf (j : ℚ) = some ((buf.getD j.toNat 0 : ℕ) : ℚ) := by
  unfold readByte
  rw [if_pos ⟨by exact_mod_cast h0, Rat.den_intCast j⟩]
  rw [List.getD_eq_get?]
  have hn : ((j : ℚ)).num = j := Rat.num_intCast j
  rw [hn]
  cases hg : buf.get? j.toNat with
  | none =>
    rw [List.get?_eq_none] at hg
    omega
  | some v => simp

theorem jsGet_at (W : ℤ) (buf : Buffer) (x y k : ℤ) (hxy : y * W + x = k)
    (hk : 0 ≤ k) (hin : (k * 4 + 3).toNat < buf.length) :
    jsGet W buf ((x : ℚ), (y : ℚ)) =
      (some ((pixAt buf k).1 : ℚ), some ((pixAt buf k).2.1 : ℚ),
       some ((pixAt buf k).2.2.1 : ℚ), some ((pixAt buf k).2.2.2 : ℚ)) := by
  unfold jsGet pixAt
  have hidx : ((y : ℚ) * (W : ℚ) + (x : ℚ)) * 4 = ((k * 4 : ℤ) : ℚ) := by
    rw [← hxy]
    push_cast
    ring
  have h1 : ((k * 4 : ℤ) : ℚ) + 1 = ((k * 4 + 1 : ℤ) : ℚ) := by push_cast; ring
  have h2 : ((k * 4 : ℤ) : ℚ) + 2 = ((k * 4 + 2 : ℤ) : ℚ) := by push_cast; ring
  have h3 : ((k * 4 : ℤ) : ℚ) + 3 = ((k * 4 + 3 : ℤ) : ℚ) := by push_cast; ring
  rw [hidx]
  show (readByte buf ((k * 4 : ℤ) : ℚ), readByte buf (((k * 4 : ℤ) : ℚ) + 1),
    readByte buf (((k * 4 : ℤ) : ℚ) + 2), readByte buf (((k * 4 : ℤ) : ℚ) + 3)) = _
  rw [h1, h2, h3]
  rw [readByte_eq_getD buf (k * 4) (by omega) (by omega),
    readByte_eq_getD buf (k * 4 + 1) (by omega) (by omega),
    readByte_eq_getD buf (k * 4 + 2) (by omega) (by omega),
    readByte_eq_getD buf (k * 4 + 3) (by omega) (by omega)]

theorem jsSet_arr4_at (W H : ℤ) (buf : Buffer) (x y : ℤ) (r3 g3 b3 a3 : JSNum)
    (hx0 : 0 ≤ x) (hxW : x < W) (hy0 : 0 ≤ y) (hyH : y < H) :
    jsSet W H buf ((x : ℚ), (y : ℚ)) (.arr [r3, g3, b3, a3]) =
      (none, writePix buf (y * W + x)
        (toUint8Clamp r3, toUint8Clamp g3, toUint8Clamp b3, toUint8Clamp a3)) := by
  unfold jsSet
  simp only [toColor]
  rw [jsRound_intCast, jsRound_intCast]
  rw [if_neg (by push_neg; exact ⟨hx0, hxW, hy0, hyH⟩)]
  rfl

theorem jsSet_arr4_oob (W H : ℤ) (buf : Buffer) (x y : ℤ) (r3 g3 b3 a3 : JSNum)
    (h : x < 0 ∨ W ≤ x ∨ y < 0 ∨ H ≤ y) :
    jsSet W H buf ((x : ℚ), (y : ℚ)) (.arr [r3, g3, b3, a3]) = (none, buf) := by
  unfold jsSet
  simp only [toColor]
  rw [jsRound_intCast, jsRound_intCast]
  rw [if_pos h]

/-- Applying the blended write of flush at a staged key k: in range it
replaces pixel k with the blend of its old bytes, out of range it does
nothing; it never throws for a valid color. -/
theorem jsAdd_at_key (W H : ℤ) (c : Color) (nc : FullColor) (buf : Buffer) (k : ℤ)
    (hW : 0 < W) (hH : 0 < H) (hk : 0 ≤ k)
    (hlen : buf.length = (W * H * 4).toNat) (hc : toColor c = .ok nc) :
    jsAdd W H buf (((k % W : ℤ) : ℚ), ((⌊(k : ℚ) / (W : ℚ)⌋ : ℤ) : ℚ)) c =
      (none, if k < W * H then writePix buf k (blendBytes (pixAt buf k) nc) else buf) := by
  obtain ⟨r2, g2, b2, a2⟩ := nc
  have hWnat : ((W.toNat : ℕ) : ℤ) = W := Int.toNat_of_nonneg (le_of_lt hW)
  have hfl : (⌊(k : ℚ) / (W : ℚ)⌋ : ℤ) = k / W := by
    rw [show ((W : ℚ)) = ((W.toNat : ℕ) : ℚ) by exact_mod_cast hWnat.symm,
      Rat.floor_intCast_div_natCast, hWnat]
  have hx0 : 0 ≤ k % W := Int.emod_nonneg k (by omega)
  have hxW : k % W < W := Int.emod_lt_of_pos k hW
  have hy0 : 0 ≤ k / W := Int.ediv_nonneg hk (le_of_lt hW)
  have hxy : (k / W) * W + k % W = k := by
    have := Int.ediv_add_emod k W
    linarith
  rw [hfl]
  by_cases hkin : k < W * H
  · have hyH : k / W < H := by
      rw [Int.ediv_lt_iff_lt_mul hW]
      linarith
    have hin : (k * 4 + 3).toNat < buf.length := by
      rw [hlen]
      have : k * 4 + 3 < W * H * 4 := by nlinarith
      omega
    simp only [jsAdd, hc, jsGet_at W buf (k % W) (k / W) k hxy hk hin]
    rw [jsSet_arr4_at W H buf (k % W) (k / W) _ _ _ _ hx0 hxW hy0 hyH]
    rw [if_pos hkin, hxy]
    rfl
  · have hyH : H ≤ k / W := by
      rw [Int.le_ediv_iff_mul_le hW]
      linarith
    simp only [jsAdd, hc]
    rw [jsSet_arr4_oob W H buf (k % W) (k / W) _ _ _ _ (by omega)]
    rw [if_neg hkin]

/-- Flushing a deduplicated uniformly-colored batch with blending on:
it never throws, and each in-range pixel is blended exactly once if its
index is staged, else untouched. -/
theorem flushGo_char (W H : ℤ) (c : Color) (nc : FullColor)
    (hW : 0 < W) (hH : 0 < H) (hc : toColor c = .ok nc) :
    ∀ (m : TempMap) (buf : Buffer),
      (keysOf m).Nodup → uniformC c m → (∀ p ∈ m, 0 ≤ p.1) →
      buf.length = (W * H * 4).toNat →
      (flushGo W H true m buf).1 = none ∧
      (flushGo W H true m buf).2.length = buf.length ∧
      ∀ i : ℤ, 0 ≤ i → i < W * H →
        pixAt (flushGo W H true m buf).2 i =
          if i ∈ keysOf m then blendBytes (pixAt buf i) nc else pixAt buf i := by
  intro m
  induction m with
  | nil =>
    intro buf _ _ _ _
    refine ⟨rfl, rfl, fun i _ _ => ?_⟩
    rw [if_neg (by simp [keysOf])]
    rfl
  | cons p rest ih =>
    intro buf hnd hu hnn hlen
    obtain ⟨k, col⟩ := p
    have hcol : col = c := hu (k, col) (by simp)
    rw [hcol]
    have hk0 : 0 ≤ k := hnn (k, col) (by simp)
    have hkeys : keysOf ((k, c) :: rest) = k :: keysOf rest := rfl
    have hknd : k ∉ keysOf rest ∧ (keysOf rest).Nodup := by
      have hnd2 : (k :: keysOf rest).Nodup := hnd
      exact ⟨(List.nodup_cons.mp hnd2).1, (List.nodup_cons.mp hnd2).2⟩
    have hstep : flushGo W H true ((k, c) :: rest) buf =
        flushGo W H true rest
          (if k < W * H then writePix buf k (blendBytes (pixAt buf k) nc) else buf) := by
      simp only [flushGo]
      rw [if_pos trivial, jsAdd_at_key W H c nc buf k hW hH hk0 hlen hc]
    rw [hstep]
    by_cases hkin : k < W * H
    · rw [if_pos hkin]
      have hin : (k * 4 + 3).toNat < buf.length := by
        rw [hlen]
        have h5 : k * 4 + 3 < W * H * 4 := by nlinarith
        omega
      have hlen2 : (writePix buf k (blendBytes (pixAt buf k) nc)).length =
          (W * H * 4).toNat := by
        rw [length_writePix, hlen]
      obtain ⟨he, hl, hchar⟩ := ih (writePix buf k (blendBytes (pixAt buf k) nc))
        hknd.2 (fun q hq => hu q (by simp [hq])) (fun q hq => hnn q (by simp [hq])) hlen2
      refine ⟨he, by rw [hl, length_writePix], fun i hi0 hiWH => ?_⟩
      rw [hchar i hi0 hiWH, hkeys]
      by_cases hik : i = k
      · subst hik
        rw [if_neg hknd.1, if_pos (by simp)]
        exact pixAt_writePix_self buf i (blendBytes (pixAt buf i) nc) hk0 hin
      · rw [pixAt_writePix_ne buf k i (blendBytes (pixAt buf k) nc) hk0 hi0 hik]
        by_cases hmem : i ∈ keysOf rest
        · rw [if_pos hmem, if_pos (by simp [hmem])]
        · rw [if_neg hmem, if_neg (by simp [hik, hmem])]
    · rw [if_neg hkin]
      obtain ⟨he, hl, hchar⟩ := ih buf hknd.2
        (fun q hq => hu q (by simp [hq])) (fun q hq => hnn q (by simp [hq])) hlen
      refine ⟨he, hl, fun i hi0 hiWH => ?_⟩
      rw [hchar i hi0 hiWH, hkeys]
      have hik : i ≠ k := by omega
      by_cases hmem : i ∈ keysOf rest
      · rw [if_pos hmem, if_pos (by simp [hmem])]
      · rw [if_neg hmem, if_neg (by simp [hik, hmem])]

/-! Error taxonomy and basic flush facts. -/

theorem toColor_error (c : Color) (e : String) (h : toColor c = .error e) :
    e = "Invalid color" := by
  cases c with
  | arr cs =>
    simp only [toColor] at h
    split at h <;> simp_all
  | str s =>
    simp only [toColor] at h
    repeat' split at h
    all_goals simp_all

theorem jsSet_err (W H : ℤ) (buf : Buffer) (p : ℚ × ℚ) (c : Color) (e : String)
    (h : (jsSet W H buf p c).1 = some e) : e = "Invalid color" := by
  unfold jsSet at h
  cases hc : toColor c with
  | error e2 =>
    rw [hc] at h
    simp at h
    rw [← h]
    exact toColor_error c e2 hc
  | ok v =>
    obtain ⟨r, g, b, a⟩ := v
    rw [hc] at h
    simp at h
    split at h <;> simp_all

theorem jsAdd_err (W H : ℤ) (buf : Buffer) (p : ℚ × ℚ) (c : Color) (e : String)
    (h : (jsAdd W H buf p c).1 = some e) : e = "Invalid color" := by
  unfold jsAdd at h
  cases hc : toColor c with
  | error e2 =>
    rw [hc] at h
    simp at h
    rw [← h]
    exact toColor_error c e2 hc
  | ok v =>
    obtain ⟨r2, g2, b2, a2⟩ := v
    rw [hc] at h
    exact jsSet_err W H buf p _ e h

theorem flushGo_err (W H : ℤ) (bl : Bool) : ∀ (m : TempMap) (buf : Buffer),
    (flushGo W H bl m buf).1 = none ∨ (flushGo W H bl m buf).1 = some "Invalid color" := by
  intro m
  induction m with
  | nil => intro buf; left; rfl
  | cons p rest ih =>
    intro buf
    obtain ⟨k, col⟩ := p
    simp only [flushGo]
    by_cases hbl : bl = true
    · rw [if_pos hbl]
      cases hs : jsAdd W H buf (((k % W : ℤ) : ℚ), ((⌊(k : ℚ) / (W : ℚ)⌋ : ℤ) : ℚ)) col with
      | mk e b2 =>
        cases e with
        | none => exact ih b2
        | some ee =>
          right
          have : ee = "Invalid color" := jsAdd_err W H buf _ col ee (by rw [hs])
          simp [this]
    · rw [if_neg hbl]
      cases hs : jsSet W H buf (((k % W : ℤ) : ℚ), ((⌊(k : ℚ) / (W : ℚ)⌋ : ℤ) : ℚ)) col with
      | mk e b2 =>
        cases e with
        | none => exact ih b2
        | some ee =>
          right
          have : ee = "Invalid color" := jsSet_err W H buf _ col ee (by rw [hs])
          simp [this]

theorem flush_fd (W H : ℤ) (buf : Buffer) (st : DrawerState) :
    (flush W H buf st).st.flushDisablers = st.flushDisablers := by
  unfold flush
  split_ifs
  · rfl
  · cases hg : flushGo W H st.blending st.temp buf with
    | mk e b2 => cases e <;> rfl

theorem flush_suppressed (W H : ℤ) (buf : Buffer) (st : DrawerState)
    (h : st.flushDisablers ≠ 0) : flush W H buf st = ⟨none, buf, st⟩ := by
  unfold flush
  rw [if_pos h]

theorem flush_temp_of_success (W H : ℤ) (buf : Buffer) (st : DrawerState)
    (h0 : st.flushDisablers = 0) :
    ∀ _ : (flush W H buf st).err = none, (flush W H buf st).st.temp = [] := by
  unfold flush
  rw [if_neg (by simp [h0])]
  cases hg : flushGo W H st.blending st.temp buf with
  | mk e b2 =>
    cases e with
    | none => intro _; rfl
    | some ee =>
      intro h
      simp at h

theorem flush_err (W H : ℤ) (buf : Buffer) (st : DrawerState) :
    (flush W H buf st).err = none ∨ (flush W H buf st).err = some "Invalid color" := by
  unfold flush
  split_ifs
  · left; rfl
  · cases hg : flushGo W H st.blending st.temp buf with
    | mk e b2 =>
      rcases flushGo_err W H st.blending st.temp buf with h | h <;> rw [hg] at h <;>
        simp at h
      · subst h
        left
        rfl
      · subst h
        right
        rfl

theorem frectLoop_char (W H : ℤ) (c : Color) (x0 x1 y1 : ℚ) :
    ∀ (fuel : ℕ) (y : ℚ), ∃ (er : Option String) (K : List ℤ),
      (er = none ∨ er = some "nontermination") ∧ (∀ k ∈ K, 0 ≤ k) ∧
      ∀ st : DrawerState,
        frectLoop W H c x0 x1 y1 fuel y st = (er, { st with temp := foldStage K c st.temp }) := by
  intro fuel
  induction fuel with
  | zero => exact fun y => ⟨some "nontermination", [], Or.inr rfl, by simp, fun st => rfl⟩
  | succ fuel ih =>
    intro y
    by_cases h : y ≤ y1
    · obtain ⟨er1, K1, her1, hK1, hrow⟩ := rowLoop_char W H c y x1 (fuelFor x0 x1) x0
      rcases her1 with rfl | rfl
      · obtain ⟨er, K, her, hK, hrec⟩ := ih (y + 1)
        refine ⟨er, K1 ++ K, her, ?_, fun st => ?_⟩
        · intro k hk
          rcases List.mem_append.mp hk with hk | hk
          · exact hK1 k hk
          · exact hK k hk
        · simp only [frectLoop, if_pos h, hrow, hrec]
          simp only [foldStage_append]
      · refine ⟨some "nontermination", K1, Or.inr rfl, hK1, fun st => ?_⟩
        simp only [frectLoop, if_pos h, hrow]
    · refine ⟨none, [], Or.inl rfl, by simp, fun st => ?_⟩
      simp only [frectLoop, if_neg h]
      rfl

theorem triSpan_char (W H : ℤ) (c : Color) (yy : ℚ) (xs xe : ExtQ) :
    ∃ (er : Option String) (K : List ℤ),
      (er = none ∨ er = some "nontermination") ∧ (∀ k ∈ K, 0 ≤ k) ∧
      ∀ st : DrawerState,
        triSpan W H c yy xs xe st = (er, { st with temp := foldStage K c st.temp }) := by
  unfold triSpan
  cases hxs : eround xs <;> cases hxe : eround xe
  case fin.fin qa qb => exact rowLoop_char W H c yy qb (fuelFor qa qb) qa
  all_goals first
    | exact ⟨some "nontermination", [], Or.inr rfl, by simp, fun st => rfl⟩
    | exact ⟨none, [], Or.inl rfl, by simp, fun st => rfl⟩

theorem triPass_char (W H : ℤ) (c : Color) (ylimit : ℚ) (dxa dxb : ExtQ) :
    ∀ (fuel : ℕ) (y : ℚ) (xs xe : ExtQ),
      ∃ (er : Option String) (K : List ℤ) (res : ExtQ × ExtQ),
      (er = none ∨ er = some "nontermination") ∧ (∀ k ∈ K, 0 ≤ k) ∧
      ∀ st : DrawerState,
        triPass W H c ylimit dxa dxb fuel y xs xe st =
          (er, res, { st with temp := foldStage K c st.temp }) := by
  intro fuel
  induction fuel with
  | zero =>
    exact fun y xs xe => ⟨some "nontermination", [], (xs, xe), Or.inr rfl, by simp,
      fun st => rfl⟩
  | succ fuel ih =>
    intro y xs xe
    by_cases h : y < ylimit
    · obtain ⟨er1, K1, her1, hK1, hspan⟩ := triSpan_char W H c y xs xe
      rcases her1 with rfl | rfl
      · obtain ⟨er, K, res, her, hK, hrec⟩ := ih (y + 1) (eadd xs dxa) (eadd xe dxb)
        refine ⟨er, K1 ++ K, res, her, ?_, fun st => ?_⟩
        · intro k hk
          rcases List.mem_append.mp hk with hk | hk
          · exact hK1 k hk
          · exact hK k hk
        · simp only [triPass, if_pos h, hspan, hrec]
          simp only [foldStage_append]
      · refine ⟨some "nontermination", K1, (xs, xe), Or.inr rfl, hK1, fun st => ?_⟩
        simp only [triPass, if_pos h, hspan]
    · refine ⟨none, [], (xs, xe), Or.inl rfl, by simp, fun st => ?_⟩
      simp only [triPass, if_neg h]
      rfl

theorem bezLoop_shape (W H : ℤ) (points : List (ℚ × ℚ)) (c : Color) (step : ℚ)
    (th : ℚ) :
    ∀ (fuel : ℕ) (t : ℚ) (lastP : ℚ × ℚ) (bl : Bool) (fd : ℤ) (m : TempMap)
      (buf : Buffer), 1 ≤ fd →
      ∃ (er : Option String) (M : TempMap),
        (er = none ∨ er = some "nontermination") ∧
        bezLoop W H points c step fuel t lastP buf ⟨bl, th, m, fd⟩ =
          ⟨er, buf, ⟨bl, th, M, fd⟩⟩ := by
  intro fuel
  induction fuel with
  | zero =>
    exact fun t lastP bl fd m buf _ => ⟨some "nontermination", m, Or.inr rfl, rfl⟩
  | succ fuel ih =>
    intro t lastP bl fd m buf hfd
    by_cases h : t ≤ 1
    · obtain ⟨er, M, her, hrec⟩ := ih (t + step) (lerpPoints points t) bl fd
        (lineTemp W H c th lastP (lerpPoints points t) m) buf hfd
      refine ⟨er, M, her, ?_⟩
      simp only [bezLoop, if_pos h]
      rw [drawLine_eq W H c th lastP (lerpPoints points t) bl fd m buf hfd]
      simp only [Res.bind]
      exact hrec
    · refine ⟨none, m, Or.inl rfl, ?_⟩
      simp only [bezLoop, if_neg h]

theorem bezLoop_complete (W H : ℤ) (points : List (ℚ × ℚ)) (c : Color) (step : ℚ)
    (th : ℚ) (hstep : 0 < step) :
    ∀ (fuel : ℕ) (t : ℚ) (lastP : ℚ × ℚ) (bl : Bool) (fd : ℤ) (m : TempMap)
      (buf : Buffer), 1 ≤ fd → 1 < t + (fuel : ℚ) * step →
      ∃ M : TempMap,
        bezLoop W H points c step (fuel + 1) t lastP buf ⟨bl, th, m, fd⟩ =
          ⟨none, buf, ⟨bl, th, M, fd⟩⟩ := by
  intro fuel
  induction fuel with
  | zero =>
    intro t lastP bl fd m buf _ hlt
    push_cast at hlt
    have h : ¬ t ≤ 1 := by linarith
    exact ⟨m, by simp only [bezLoop, if_neg h]⟩
  | succ fuel ih =>
    intro t lastP bl fd m buf hfd hlt
    by_cases h : t ≤ 1
    · obtain ⟨M, hrec⟩ := ih (t + step) (lerpPoints points t) bl fd
        (lineTemp W H c th lastP (lerpPoints points t) m) buf hfd
        (by push_cast at hlt ⊢; linarith)
      refine ⟨M, ?_⟩
      simp only [bezLoop, if_pos h]
      rw [drawLine_eq W H c th lastP (lerpPoints points t) bl fd m buf hfd]
      simp only [Res.bind]
      exact hrec
    · exact ⟨m, by simp only [bezLoop, if_neg h]⟩

theorem flush_empty_temp (W H : ℤ) (buf : Buffer) (st : DrawerState)
    (ht : st.temp = []) : flush W H buf st = ⟨none, buf, st⟩ := by
  obtain ⟨bl, th, tmp, fd⟩ := st
  have ht2 : tmp = [] := ht
  subst ht2
  unfold flush
  split_ifs <;> rfl

/-! Claim theorems. -/

/-- Claim C1 (counterexample): normalizing hsl(0, 100, 50) does not
give pure red, contradicting the claim as stated. -/
theorem hsl_red_not_pure :
    toColor (.str "hsl(0, 100, 50)") ≠ .ok (some 255, some 0, some 0, some 255) := by
  decide

/-- Claim C1 (amended): with the implemented formula (chroma
C = (L/100)·(S/100), offset m = L/100 − C), the primary hues at
lightness 50 normalize to the half-intensity primaries [128,0,0,255],
[0,128,0,255] and [0,0,128,255]. -/
theorem hsl_primary_values :
    toColor (.str "hsl(0, 100, 50)") = .ok (some 128, some 0, some 0, some 255) ∧
    toColor (.str "hsl(120, 100, 50)") = .ok (some 0, some 128, some 0, some 255) ∧
    toColor (.str "hsl(240, 100, 50)") = .ok (some 0, some 0, some 128, some 255) := by
  refine ⟨?_, ?_, ?_⟩ <;> decide

/-- Claim C2 (counterexample): Image.set called at x = −0.4 on a 1×1
image mutates the buffer, because set rounds before its bounds check. -/
theorem set_fractional_mutates :
    (jsSet 1 1 [9, 9, 9, 9] (-(2 : ℚ) / 5, 0) (.arr [some 1, some 2, some 3])).2 ≠
      [9, 9, 9, 9] := by
  decide

/-- Claim C2 (amended): ImageDrawer.setPixel drops any write whose raw
coordinates are out of range, so such a staged write mutates nothing;
Image.set checks the rounded coordinates, so it mutates nothing exactly
when the rounded point is out of range (a fractional coordinate such as
x = −0.4 that rounds into range is written by set). -/
theorem bounds_check_semantics (W H : ℤ) (buf : Buffer) (st : DrawerState)
    (p : ℚ × ℚ) (c : Color) :
    ((p.1 < 0 ∨ (W : ℚ) ≤ p.1 ∨ p.2 < 0 ∨ (H : ℚ) ≤ p.2) →
      setPixelD W H st p c = st) ∧
    ((jsRound p.1 < 0 ∨ W ≤ jsRound p.1 ∨ jsRound p.2 < 0 ∨ H ≤ jsRound p.2) →
      (jsSet W H buf p c).2 = buf) := by
  constructor
  · intro h
    unfold setPixelD
    rw [if_pos h]
  · intro h
    cases hc : toColor c with
    | error e => simp only [jsSet, hc]
    | ok v =>
      obtain ⟨r, g, b, a⟩ := v
      simp only [jsSet, hc, if_pos h]

/-- Claim C2 (witness). -/
theorem bounds_check_semantics_witness :
    setPixelD 1 1 initialDrawerState (-1, 0) (.arr [some 1, some 2, some 3])
        = initialDrawerState ∧
    (jsSet 1 1 [5, 5, 5, 5] (-1, 0) (.arr [some 1, some 2, some 3])).2 = [5, 5, 5, 5] :=
  ⟨(bounds_check_semantics 1 1 [5, 5, 5, 5] initialDrawerState (-1, 0)
      (.arr [some 1, some 2, some 3])).1 (by norm_num),
   (bounds_check_semantics 1 1 [5, 5, 5, 5] initialDrawerState (-1, 0)
      (.arr [some 1, some 2, some 3])).2 (by decide)⟩

/-- Claim C10: a strictly negative radius makes both circle operations
a silent no-op: the octant loop never runs, nothing is staged, and no
byte of the buffer changes. -/
theorem negative_radius_noop (W H : ℤ) (buf : Buffer) (st : DrawerState)
    (center : ℚ × ℚ) (radius : ℚ) (c : Color)
    (hr : radius < 0) (ht : st.temp = []) :
    drawCircle W H buf st center radius c = ⟨none, buf, st⟩ ∧
    drawFilledCircle W H buf st center radius c = ⟨none, buf, st⟩ := by
  have h1 : ¬ (((0 : ℤ) : ℚ) ≤ radius) := by push_cast; linarith
  have hfuel : fuelFor 0 radius = (⌈radius - 0⌉ + 1).toNat + 1 := rfl
  constructor
  · unfold drawCircle
    rw [hfuel]
    simp only [circLoop, if_neg h1]
    exact flush_empty_temp W H buf st ht
  · unfold drawFilledCircle
    rw [hfuel]
    simp only [fcLoop, if_neg h1]
    exact flush_empty_temp W H buf st ht

/-- Claim C10 (witness). -/
theorem negative_radius_noop_witness :
    drawCircle 5 5 (List.replicate 100 7) initialDrawerState (2, 2) (-3)
        (.str "#FFFFFF") = ⟨none, List.replicate 100 7, initialDrawerState⟩ ∧
    drawFilledCircle 5 5 (List.replicate 100 7) initialDrawerState (2, 2) (-3)
        (.str "#FFFFFF") = ⟨none, List.replicate 100 7, initialDrawerState⟩ :=
  negative_radius_noop 5 5 (List.replicate 100 7) initialDrawerState (2, 2) (-3)
    (.str "#FFFFFF") (by norm_num) rfl

set_option maxRecDepth 100000 in
/-- Claim C8: on a 10×10 buffer filled with #000000, drawing the line
(0,0)–(9,9) in #FFFFFF turns exactly the ten main-diagonal pixels white
and leaves every other pixel black. -/
theorem diagonal_line_scenario :
    (drawLine 10 10
        (fillOp 10 10 (List.replicate 400 0) initialDrawerState (.str "#000000")).buf
        (fillOp 10 10 (List.replicate 400 0) initialDrawerState (.str "#000000")).st
        (0, 0) (9, 9) (.str "#FFFFFF")).err = none ∧
    (drawLine 10 10
        (fillOp 10 10 (List.replicate 400 0) initialDrawerState (.str "#000000")).buf
        (fillOp 10 10 (List.replicate 400 0) initialDrawerState (.str "#000000")).st
        (0, 0) (9, 9) (.str "#FFFFFF")).buf =
      (List.range 100).foldr
        (fun i acc => (if i % 11 == 0 then [255, 255, 255, 255] else [0, 0, 0, 255]) ++ acc)
        [] := by
  constructor <;> decide

theorem hexDigit_not_special (ch : Char) (h : isHexDigitB ch = true) :
    jsWhite ch = false ∧ ch ≠ '-' ∧ ch ≠ '+' ∧ ch ≠ 'x' ∧ ch ≠ 'X' := by
  refine ⟨?_, ?_, ?_, ?_, ?_⟩
  · cases hw : jsWhite ch with
    | false => rfl
    | true =>
      simp only [jsWhite, decide_eq_true_eq] at hw
      rcases hw with rfl | rfl | rfl | rfl | rfl | rfl <;> exact absurd h (by decide)
  · rintro rfl; exact absurd h (by decide)
  · rintro rfl; exact absurd h (by decide)
  · rintro rfl; exact absurd h (by decide)
  · rintro rfl; exact absurd h (by decide)

theorem jsParseIntHex_pair (c1 c2 : Char) (h1 : isHexDigitB c1 = true)
    (h2 : isHexDigitB c2 = true) :
    jsParseIntHex [c1, c2] = some (16 * (hexVal c1 : ℤ) + hexVal c2) := by
  obtain ⟨hw1, hm1, hp1, -, -⟩ := hexDigit_not_special c1 h1
  obtain ⟨-, -, -, hx2, hX2⟩ := hexDigit_not_special c2 h2
  have hdw : List.dropWhile jsWhite [c1, c2] = [c1, c2] := by
    simp [List.dropWhile, hw1]
  have htw : List.takeWhile isHexDigitB [c1, c2] = [c1, c2] := by
    simp [List.takeWhile, h1, h2]
  simp only [jsParseIntHex]
  rw [hdw]
  have hsgn : (match [c1, c2] with
      | '-' :: rest => ((-1 : ℤ), rest)
      | '+' :: rest => ((1 : ℤ), rest)
      | _ => ((1 : ℤ), [c1, c2])) = ((1 : ℤ), [c1, c2]) := by
    split
    · next rest heq =>
      refine absurd ?_ hm1
      injection heq
    · next rest heq =>
      refine absurd ?_ hp1
      injection heq
    · rfl
  simp only [hsgn]
  have h0x : (match [c1, c2] with
      | '0' :: 'x' :: rest => rest
      | '0' :: 'X' :: rest => rest
      | _ => [c1, c2]) = [c1, c2] := by
    split
    · next rest heq =>
      refine absurd ?_ hx2
      injection heq with ha hb
      injection hb with hc hd
    · next rest heq =>
      refine absurd ?_ hX2
      injection heq with ha hb
      injection hb with hc hd
    · rfl
  rw [h0x, htw]
  simp only [List.isEmpty, List.foldl]
  norm_num
  ring

/-- Claim C6 (counterexample): the hex path validates only the length,
so the all-malformed string #GGGGGG is accepted (with NaN channels and
alpha 255) instead of failing with Invalid color. -/
theorem malformed_hex_accepted :
    toColor (.str "#GGGGGG") = .ok (none, none, none, some 255) := by
  decide

/-- Claim C6 (amended): for a string starting with #, toColor succeeds
exactly when the length is 7 or 9 (pair contents are never validated);
the 7-character form always yields alpha 255, and a 9-character form
whose final pair consists of hex digits yields that alpha byte. -/
theorem hex_length_only_validated (s : String) (hs : s.data.take 1 = ['#']) :
    ((∃ out, toColor (.str s) = .ok out) ↔ (s.data.length = 7 ∨ s.data.length = 9)) ∧
    (s.data.length = 7 → ∃ r g b, toColor (.str s) = .ok (r, g, b, some 255)) ∧
    (∀ r g b a c1 c2, s.data.length = 9 → toColor (.str s) = .ok (r, g, b, a) →
      s.data.drop 7 = [c1, c2] → isHexDigitB c1 = true → isHexDigitB c2 = true →
      a = some (((16 * hexVal c1 + hexVal c2 : ℕ) : ℤ) : ℚ)) := by
  obtain ⟨c0, cs, hcs⟩ : ∃ c0 cs, s.data = c0 :: cs := by
    cases hd : s.data with
    | nil => rw [hd] at hs; cases hs
    | cons c0 cs => exact ⟨c0, cs, rfl⟩
  have hc0 : c0 = '#' := by
    rw [hcs] at hs
    simpa using hs
  subst hc0
  have hnothsl : ¬ s.data.take 4 = ['h', 's', 'l', '('] := by
    rw [hcs]
    intro h
    cases cs <;> simp_all
  have hred : toColor (.str s) =
      (if s.data.length ≠ 7 ∧ s.data.length ≠ 9 then .error "Invalid color"
       else .ok ((jsParseIntHex ((s.data.drop 1).take 2)).map (fun z => (z : ℚ)),
                 (jsParseIntHex (((s.data.drop 1).drop 2).take 2)).map (fun z => (z : ℚ)),
                 (jsParseIntHex (((s.data.drop 1).drop 4).take 2)).map (fun z => (z : ℚ)),
                 if (s.data.drop 1).length = 8 then
                   (jsParseIntHex (((s.data.drop 1).drop 6).take 2)).map (fun z => (z : ℚ))
                 else some 255)) := by
    simp only [toColor]
    rw [if_neg hnothsl, if_pos hs]
  refine ⟨⟨?_, ?_⟩, ?_, ?_⟩
  · rintro ⟨out, hout⟩
    by_contra hno
    push_neg at hno
    rw [hred, if_pos hno] at hout
    cases hout
  · intro hlen
    rw [hred, if_neg (by tauto)]
    exact ⟨_, rfl⟩
  · intro h7
    have hhl : (s.data.drop 1).length = 6 := by
      rw [List.length_drop, h7]
    rw [hred, if_neg (fun hcon => hcon.1 h7),
      if_neg (show ¬ (s.data.drop 1).length = 8 by omega)]
    exact ⟨_, _, _, rfl⟩
  · intro r g b a c1 c2 h9 hok hdrop hh1 hh2
    have hhl : (s.data.drop 1).length = 8 := by
      rw [List.length_drop, h9]
    rw [hred, if_neg (fun hcon => hcon.2 h9)] at hok
    rw [if_pos hhl] at hok
    have hdd : (s.data.drop 1).drop 6 = [c1, c2] := by
      rw [List.drop_drop]
      exact hdrop
    rw [hdd] at hok
    have htk : ([c1, c2].take 2) = [c1, c2] := rfl
    rw [htk, jsParseIntHex_pair c1 c2 hh1 hh2] at hok
    have := (Except.ok.inj hok)
    have ha := congrArg (fun q => q.2.2.2) this
    simp only [Option.map_some] at ha
    rw [← ha]
    have hx : ((16 * hexVal c1 + hexVal c2 : ℕ) : ℤ) =
        16 * (hexVal c1 : ℤ) + hexVal c2 := by push_cast; ring
    rw [hx]
    rfl

/-- Claim C6 (witness). -/
theorem hex_length_only_validated_witness :
    ((∃ out, toColor (.str "#Ab12Cd9f") = .ok out) ↔
      (("#Ab12Cd9f" : String).data.length = 7 ∨ ("#Ab12Cd9f" : String).data.length = 9)) ∧
    (some ((171 : ℚ), (18 : ℚ), (205 : ℚ), some (159 : ℚ)) ≠ none →
      (some (159 : ℚ) : JSNum) =
        some (((16 * hexVal '9' + hexVal 'f' : ℕ) : ℤ) : ℚ)) :=
  ⟨(hex_length_only_validated "#Ab12Cd9f" (by decide)).1,
   fun _ => (hex_length_only_validated "#Ab12Cd9f" (by decide)).2.2
     (some 171) (some 18) (some 205) (some 159) '9' 'f'
     (by decide) (by decide) (by decide) (by decide) (by decide)⟩

theorem get?_getD_of_lt (l : List ℕ) (n : ℕ) (h : n < l.length) :
    l.get? n = some (l.getD n 0) := by
  cases hg : l.get? n with
  | none =>
    rw [List.get?_eq_none] at hg
    omega
  | some v =>
    rw [List.getD_eq_get?, hg]
    rfl

theorem writePix_self (buf : Buffer) (k : ℤ) (hk : 0 ≤ k)
    (hin : (k * 4 + 3).toNat < buf.length) :
    writePix buf k (pixAt buf k) = buf := by
  unfold writePix pixAt writeByte
  rw [if_pos (by omega), if_pos (by omega), if_pos (by omega), if_pos (by omega)]
  rw [list_set_self _ _ _ (get?_getD_of_lt buf (k * 4).toNat (by omega)),
    list_set_self _ _ _ (get?_getD_of_lt buf (k * 4 + 1).toNat (by omega)),
    list_set_self _ _ _ (get?_getD_of_lt buf (k * 4 + 2).toNat (by omega)),
    list_set_self _ _ _ (get?_getD_of_lt buf (k * 4 + 3).toNat (by omega))]

/-- Claim C5: Image.add at an in-range integer pixel, with a valid
color of finite channels (r2,g2,b2,a2): with α = a2/255 and ᾱ = 1−α it
never throws and stores exactly round(r·ᾱ + r2·α), round(g·ᾱ + g2·α),
round(b·ᾱ + b2·α) and a + a2·ᾱ, each through the clamped byte store;
and with incoming alpha a2 = 0 the buffer is left byte-for-byte
unchanged. -/
theorem add_blend_formula (W H x y : ℤ) (buf : Buffer) (c : Color)
    (r2 g2 b2 a2 : ℚ)
    (hW : 0 < W) (hH : 0 < H)
    (hx : 0 ≤ x) (hxW : x < W) (hy : 0 ≤ y) (hyH : y < H)
    (hlen : buf.length = (W * H * 4).toNat)
    (hbytes : ∀ v ∈ buf, v ≤ 255)
    (hc : toColor c = .ok (some r2, some g2, some b2, some a2)) :
    jsAdd W H buf ((x : ℚ), (y : ℚ)) c =
      (none, writePix buf (y * W + x)
        (toUint8Clamp (some ((jsRound
            (((pixAt buf (y * W + x)).1 : ℚ) * (1 - a2 / 255) + r2 * (a2 / 255)) : ℤ) : ℚ)),
         toUint8Clamp (some ((jsRound
            (((pixAt buf (y * W + x)).2.1 : ℚ) * (1 - a2 / 255) + g2 * (a2 / 255)) : ℤ) : ℚ)),
         toUint8Clamp (some ((jsRound
            (((pixAt buf (y * W + x)).2.2.1 : ℚ) * (1 - a2 / 255) + b2 * (a2 / 255)) : ℤ) : ℚ)),
         toUint8Clamp (some (((pixAt buf (y * W + x)).2.2.2 : ℚ) + a2 * (1 - a2 / 255))))) ∧
    (a2 = 0 → (jsAdd W H buf ((x : ℚ), (y : ℚ)) c).2 = buf) := by
  have hgetb : ∀ n : ℕ, buf.getD n 0 ≤ 255 := by
    intro n
    rw [List.getD_eq_get?]
    cases hg : buf.get? n with
    | none => simp
    | some v =>
      simp only [Option.getD_some]
      exact hbytes v (List.get?_mem hg)
  have hk : 0 ≤ y * W + x := by
    have := mul_nonneg hy (le_of_lt hW)
    omega
  have hkWH : y * W + x < W * H := by nlinarith
  have hin : ((y * W + x) * 4 + 3).toNat < buf.length := by
    rw [hlen]
    have : (y * W + x) * 4 + 3 < W * H * 4 := by nlinarith
    omega
  have hmain : jsAdd W H buf ((x : ℚ), (y : ℚ)) c =
      (none, writePix buf (y * W + x)
        (toUint8Clamp (some ((jsRound
            (((pixAt buf (y * W + x)).1 : ℚ) * (1 - a2 / 255) + r2 * (a2 / 255)) : ℤ) : ℚ)),
         toUint8Clamp (some ((jsRound
            (((pixAt buf (y * W + x)).2.1 : ℚ) * (1 - a2 / 255) + g2 * (a2 / 255)) : ℤ) : ℚ)),
         toUint8Clamp (some ((jsRound
            (((pixAt buf (y * W + x)).2.2.1 : ℚ) * (1 - a2 / 255) + b2 * (a2 / 255)) : ℤ) : ℚ)),
         toUint8Clamp (some (((pixAt buf (y * W + x)).2.2.2 : ℚ) + a2 * (1 - a2 / 255))))) := by
    simp only [jsAdd, hc, jsGet_at W buf x y (y * W + x) rfl hk hin,
      jdivq, Option.map, jsub, jmul, jadd, jnRound]
    rw [jsSet_arr4_at W H buf x y _ _ _ _ hx hxW hy hyH]
  refine ⟨hmain, fun ha2 => ?_⟩
  subst ha2
  rw [hmain]
  have hb1 : ((pixAt buf (y * W + x)).1 : ℤ) ≤ 255 := by
    exact_mod_cast hgetb ((y * W + x) * 4).toNat
  have hb2 : ((pixAt buf (y * W + x)).2.1 : ℤ) ≤ 255 := by
    exact_mod_cast hgetb ((y * W + x) * 4 + 1).toNat
  have hb3 : ((pixAt buf (y * W + x)).2.2.1 : ℤ) ≤ 255 := by
    exact_mod_cast hgetb ((y * W + x) * 4 + 2).toNat
  have hb4 : ((pixAt buf (y * W + x)).2.2.2 : ℤ) ≤ 255 := by
    exact_mod_cast hgetb ((y * W + x) * 4 + 3).toNat
  have e1 : ((pixAt buf (y * W + x)).1 : ℚ) * (1 - 0 / 255) + r2 * (0 / 255) =
      (((pixAt buf (y * W + x)).1 : ℤ) : ℚ) := by push_cast; ring
  have e2 : ((pixAt buf (y * W + x)).2.1 : ℚ) * (1 - 0 / 255) + g2 * (0 / 255) =
      (((pixAt buf (y * W + x)).2.1 : ℤ) : ℚ) := by push_cast; ring
  have e3 : ((pixAt buf (y * W + x)).2.2.1 : ℚ) * (1 - 0 / 255) + b2 * (0 / 255) =
      (((pixAt buf (y * W + x)).2.2.1 : ℤ) : ℚ) := by push_cast; ring
  have e4 : ((pixAt buf (y * W + x)).2.2.2 : ℚ) + 0 * (1 - 0 / 255) =
      (((pixAt buf (y * W + x)).2.2.2 : ℤ) : ℚ) := by push_cast; ring
  rw [e1, e2, e3, e4, jsRound_intCast, jsRound_intCast, jsRound_intCast,
    toUint8Clamp_intCast _ (Int.natCast_nonneg _) hb1,
    toUint8Clamp_intCast _ (Int.natCast_nonneg _) hb2,
    toUint8Clamp_intCast _ (Int.natCast_nonneg _) hb3,
    toUint8Clamp_intCast _ (Int.natCast_nonneg _) hb4,
    Int.toNat_natCast, Int.toNat_natCast, Int.toNat_natCast, Int.toNat_natCast]
  exact writePix_self buf (y * W + x) hk hin

/-- Claim C5 (witness). -/
theorem add_blend_formula_witness :
    jsAdd 1 1 [100, 150, 200, 50] ((0 : ℚ), (0 : ℚ))
        (.arr [some 10, some 20, some 30, some 51]) = (none, [82, 124, 166, 91]) ∧
    (jsAdd 1 1 [100, 150, 200, 50] ((0 : ℚ), (0 : ℚ))
        (.arr [some 10, some 20, some 30, some 0])).2 = [100, 150, 200, 50] :=
  ⟨((add_blend_formula 1 1 0 0 [100, 150, 200, 50]
        (.arr [some 10, some 20, some 30, some 51]) 10 20 30 51
        (by decide) (by decide) (by decide) (by decide) (by decide) (by decide)
        (by decide) (by decide) (by decide)).1).trans (by decide),
   (add_blend_formula 1 1 0 0 [100, 150, 200, 50]
        (.arr [some 10, some 20, some 30, some 0]) 10 20 30 0
        (by decide) (by decide) (by decide) (by decide) (by decide) (by decide)
        (by decide) (by decide) (by decide)).2 rfl⟩

/-- Claim C7: from an unsuppressed state, drawPath and drawBezier throw
"Invalid points" exactly when given fewer than two points, and in that
case they return immediately with the buffer and the drawer state
untouched (nothing staged, nothing written); with at least two points
that error can never be produced. -/
theorem path_bezier_invalid_input (W H : ℤ) (buf : Buffer) (st : DrawerState)
    (points : List (ℚ × ℚ)) (c : Color) (stepArg : Option ℚ)
    (hfd : st.flushDisablers = 0) :
    (points.length < 2 →
      drawPath W H buf st points c = ⟨some "Invalid points", buf, st⟩ ∧
      drawBezier W H buf st points c stepArg = ⟨some "Invalid points", buf, st⟩) ∧
    (2 ≤ points.length →
      (drawPath W H buf st points c).err ≠ some "Invalid points" ∧
      (drawBezier W H buf st points c stepArg).err ≠ some "Invalid points") := by
  constructor
  · intro hlen
    constructor
    · unfold drawPath
      rw [if_pos hlen]
    · unfold drawBezier
      rw [if_pos hlen]
  · intro hlen
    obtain ⟨bl, th, m, fd⟩ := st
    have hfd0 : fd = 0 := hfd
    subst hfd0
    have hnot : ¬ points.length < 2 := by omega
    obtain ⟨p0, rest, rfl⟩ : ∃ p0 rest, points = p0 :: rest := by
      cases points with
      | nil => simp at hlen
      | cons a l => exact ⟨a, l, rfl⟩
    constructor
    · simp only [drawPath, if_neg hnot]
      rw [pathLoop_eq W H c th rest p0 bl (0 + 1) m buf (by norm_num)]
      simp only [Res.bind]
      rcases flush_err W H buf ⟨bl, th, segTemp W H c th rest p0 m, 0 + 1 - 1⟩ with
        h | h <;> rw [h] <;> simp
    · cases stepArg with
      | some s =>
        simp only [drawBezier, if_neg hnot]
        obtain ⟨er, M, her, heq⟩ := bezLoop_shape W H (p0 :: rest) c s th
          (if 0 < s then (⌈(1 - s) / s⌉ + 1).toNat + 1 else 0) s p0 bl (0 + 1) m buf
          (by norm_num)
        rw [heq]
        simp only [Res.bind]
        rcases her with rfl | rfl
        · rcases flush_err W H buf ⟨bl, th, M, 0 + 1 - 1⟩ with h | h <;> rw [h] <;> simp
        · simp
      | none =>
        simp only [drawBezier, if_neg hnot]
        set q1 := rest.foldl (fun a b => (max a.1 b.1, max a.2 b.2)) p0 with hq1
        set q2 := rest.foldl (fun a b => (min a.1 b.1, min a.2 b.2)) p0 with hq2
        by_cases hden : |(|q1.1 - q2.1|) - (|q1.2 - q2.2|)| = 0
        · rw [if_pos hden]
          simp only [Res.bind]
          rcases flush_err W H buf ⟨bl, th, m, 0 + 1 - 1⟩ with h | h <;> rw [h] <;> simp
        · rw [if_neg hden]
          obtain ⟨er, M, her, heq⟩ := bezLoop_shape W H (p0 :: rest) c
            (1 / |(|q1.1 - q2.1|) - (|q1.2 - q2.2|)|) th
            (if 0 < 1 / |(|q1.1 - q2.1|) - (|q1.2 - q2.2|)| then
              (⌈(1 - 1 / |(|q1.1 - q2.1|) - (|q1.2 - q2.2|)|) /
                  (1 / |(|q1.1 - q2.1|) - (|q1.2 - q2.2|)|)⌉ + 1).toNat + 1 else 0)
            (1 / |(|q1.1 - q2.1|) - (|q1.2 - q2.2|)|) p0 bl (0 + 1) m buf (by norm_num)
          rw [heq]
          simp only [Res.bind]
          rcases her with rfl | rfl
          · rcases flush_err W H buf ⟨bl, th, M, 0 + 1 - 1⟩ with h | h <;> rw [h] <;> simp
          · simp

/-- Claim C7 (witness). -/
theorem path_bezier_invalid_input_witness :
    drawPath 3 3 (List.replicate 36 0) initialDrawerState [(0, 0)] (.str "#FFFFFF") =
      ⟨some "Invalid points", List.replicate 36 0, initialDrawerState⟩ ∧
    (drawPath 3 3 (List.replicate 36 0) initialDrawerState [(0, 0), (2, 2)]
        (.str "#FFFFFF")).err ≠ some "Invalid points" :=
  ⟨((path_bezier_invalid_input 3 3 (List.replicate 36 0) initialDrawerState
      [(0, 0)] (.str "#FFFFFF") none rfl).1 (by decide)).1,
   ((path_bezier_invalid_input 3 3 (List.replicate 36 0) initialDrawerState
      [(0, 0), (2, 2)] (.str "#FFFFFF") none rfl).2 (by decide)).1⟩

/-- Claim C3 (counterexample): an invalid color that fails during the
final flush of drawLine leaves the staged pixel behind: after the
operation throws, the pending-write set still holds the entry. -/
theorem temp_left_nonempty_on_error :
    drawLine 1 1 [0, 0, 0, 0] initialDrawerState (0, 0) (0, 0) (.str "x") =
      ⟨some "Invalid color", [0, 0, 0, 0], ⟨true, 1, [(0, Color.str "x")], 0⟩⟩ := by
  decide

/-- Claim C3 (amended): from an unsuppressed state, every public draw
operation that returns without an error leaves the pending-write set
empty, and fill empties it unconditionally; but an operation that
throws (see the counterexample) can leave staged writes behind. -/
theorem temp_empty_after_success (W H : ℤ) (buf : Buffer) (st : DrawerState)
    (c : Color) (hfd : st.flushDisablers = 0) :
    (∀ p1 p2, (drawLine W H buf st p1 p2 c).err = none →
      (drawLine W H buf st p1 p2 c).st.temp = []) ∧
    (∀ p1 p2, (drawFilledRectangle W H buf st p1 p2 c).err = none →
      (drawFilledRectangle W H buf st p1 p2 c).st.temp = []) ∧
    (∀ p1 p2, (drawRectangle W H buf st p1 p2 c).err = none →
      (drawRectangle W H buf st p1 p2 c).st.temp = []) ∧
    (∀ ctr r, (drawCircle W H buf st ctr r c).err = none →
      (drawCircle W H buf st ctr r c).st.temp = []) ∧
    (∀ ctr r, (drawFilledCircle W H buf st ctr r c).err = none →
      (drawFilledCircle W H buf st ctr r c).st.temp = []) ∧
    (∀ t, (drawTriangle W H buf st t c).err = none →
      (drawTriangle W H buf st t c).st.temp = []) ∧
    (∀ pts, (drawPath W H buf st pts c).err = none →
      (drawPath W H buf st pts c).st.temp = []) ∧
    (∀ pts stepArg, (drawBezier W H buf st pts c stepArg).err = none →
      (drawBezier W H buf st pts c stepArg).st.temp = []) ∧
    (fillOp W H buf st c).st.temp = [] := by
  obtain ⟨bl, th, m, fd⟩ := st
  have hfd0 : fd = 0 := hfd
  subst hfd0
  refine ⟨?_, ?_, ?_, ?_, ?_, ?_, ?_, ?_, ?_⟩
  · intro p1 p2
    obtain ⟨er, K, her, hK, h⟩ := bresLoop_char W H (jsRound p2.1) (jsRound p2.2)
      (|jsRound p2.1 - jsRound p1.1|) (|jsRound p2.2 - jsRound p1.2|)
      (if jsRound p1.1 < jsRound p2.1 then 1 else -1)
      (if jsRound p1.2 < jsRound p2.2 then 1 else -1) c th
      ((|jsRound p2.1 - jsRound p1.1| + |jsRound p2.2 - jsRound p1.2|).toNat + 1)
      (jsRound p1.1) (jsRound p1.2)
      (|jsRound p2.1 - jsRound p1.1| - |jsRound p2.2 - jsRound p1.2|)
    rcases her with rfl | rfl
    · simp only [drawLine, h bl 0 m buf (le_refl 0), Res.bind]
      exact flush_temp_of_success W H buf _ rfl
    · simp only [drawLine, h bl 0 m buf (le_refl 0), Res.bind]
      intro hcon
      cases hcon
  · intro p1 p2
    obtain ⟨er, K, her, hK, h⟩ := frectLoop_char W H c p1.1 p2.1 p2.2
      (fuelFor p1.2 p2.2) p1.2
    rcases her with rfl | rfl
    · simp only [drawFilledRectangle, h]
      exact flush_temp_of_success W H buf _ rfl
    · simp only [drawFilledRectangle, h]
      intro hcon
      cases hcon
  · intro p1 p2
    obtain ⟨er1, K1, her1, hK1, h1⟩ := spanLoop_char W H c p1.2 p2.2 p2.1
      (fuelFor p1.1 p2.1) p1.1
    rcases her1 with rfl | rfl
    · obtain ⟨er2, K2, her2, hK2, h2⟩ := vspanLoop_char W H c p1.1 p2.1 p2.2
        (fuelFor p1.2 p2.2) p1.2
      rcases her2 with rfl | rfl
      · simp only [drawRectangle, h1, h2]
        exact flush_temp_of_success W H buf _ rfl
      · simp only [drawRectangle, h1, h2]
        intro hcon
        cases hcon
    · simp only [drawRectangle, h1]
      intro hcon
      cases hcon
  · intro ctr r
    obtain ⟨er, K, her, hK, h⟩ := circLoop_char W H ctr.1 ctr.2 c (fuelFor 0 r) 0 r
      (3 - 2 * r)
    rcases her with rfl | rfl
    · simp only [drawCircle, h]
      exact flush_temp_of_success W H buf _ rfl
    · simp only [drawCircle, h]
      intro hcon
      cases hcon
  · intro ctr r
    obtain ⟨er, K, her, hK, h⟩ := fcLoop_char W H ctr.1 ctr.2 c (fuelFor 0 r) 0 r
      (3 - 2 * r)
    rcases her with rfl | rfl
    · simp only [drawFilledCircle, h]
      exact flush_temp_of_success W H buf _ rfl
    · simp only [drawFilledCircle, h]
      intro hcon
      cases hcon
  · intro t
    obtain ⟨er1, K1, res1, her1, hK1, h1⟩ := triPass_char W H c t.2.1.2
      (ediv (t.2.1.1 - t.1.1) (t.2.1.2 - t.1.2))
      (ediv (t.2.2.1 - t.1.1) (t.2.2.2 - t.1.2))
      (fuelFor t.1.2 t.2.1.2) t.1.2 (.fin t.1.1) (.fin t.1.1)
    obtain ⟨xsv, xev⟩ := res1
    rcases her1 with rfl | rfl
    · obtain ⟨er2, K2, res2, her2, hK2, h2⟩ := triPass_char W H c t.2.2.2
        (ediv (t.2.2.1 - t.2.1.1) (t.2.2.2 - t.2.1.2))
        (ediv (t.2.2.1 - t.1.1) (t.2.2.2 - t.1.2))
        (fuelFor t.2.1.2 t.2.2.2) t.2.1.2 xsv (.fin t.2.1.1)
      obtain ⟨xs2, xe2⟩ := res2
      rcases her2 with rfl | rfl
      · simp only [drawTriangle, h1, h2]
        exact flush_temp_of_success W H buf _ rfl
      · simp only [drawTriangle, h1, h2]
        intro hcon
        cases hcon
    · simp only [drawTriangle, h1]
      intro hcon
      cases hcon
  · intro pts
    by_cases hlen : pts.length < 2
    · simp only [drawPath, if_pos hlen]
      intro hcon
      cases hcon
    · obtain ⟨p0, rest, rfl⟩ : ∃ p0 rest, pts = p0 :: rest := by
        cases pts with
        | nil => simp at hlen
        | cons a l => exact ⟨a, l, rfl⟩
      simp only [drawPath, if_neg hlen]
      rw [pathLoop_eq W H c th rest p0 bl (0 + 1) m buf (by norm_num)]
      simp only [Res.bind]
      exact flush_temp_of_success W H buf _ rfl
  · intro pts stepArg
    by_cases hlen : pts.length < 2
    · simp only [drawBezier, if_pos hlen]
      intro hcon
      cases hcon
    · obtain ⟨p0, rest, rfl⟩ : ∃ p0 rest, pts = p0 :: rest := by
        cases pts with
        | nil => simp at hlen
        | cons a l => exact ⟨a, l, rfl⟩
      cases stepArg with
      | some s =>
        simp only [drawBezier, if_neg hlen]
        obtain ⟨er, M, her, heq⟩ := bezLoop_shape W H (p0 :: rest) c s th
          (if 0 < s then (⌈(1 - s) / s⌉ + 1).toNat + 1 else 0) s p0 bl (0 + 1) m buf
          (by norm_num)
        rw [heq]
        simp only [Res.bind]
        rcases her with rfl | rfl
        · exact flush_temp_of_success W H buf _ rfl
        · intro hcon
          cases hcon
      | none =>
        simp only [drawBezier, if_neg hlen]
        set q1 := rest.foldl (fun a b => (max a.1 b.1, max a.2 b.2)) p0 with hq1
        set q2 := rest.foldl (fun a b => (min a.1 b.1, min a.2 b.2)) p0 with hq2
        by_cases hden : |(|q1.1 - q2.1|) - (|q1.2 - q2.2|)| = 0
        · rw [if_pos hden]
          simp only [Res.bind]
          exact flush_temp_of_success W H buf _ rfl
        · rw [if_neg hden]
          obtain ⟨er, M, her, heq⟩ := bezLoop_shape W H (p0 :: rest) c
            (1 / |(|q1.1 - q2.1|) - (|q1.2 - q2.2|)|) th
            (if 0 < 1 / |(|q1.1 - q2.1|) - (|q1.2 - q2.2|)| then
              (⌈(1 - 1 / |(|q1.1 - q2.1|) - (|q1.2 - q2.2|)|) /
                  (1 / |(|q1.1 - q2.1|) - (|q1.2 - q2.2|)|)⌉ + 1).toNat + 1 else 0)
            (1 / |(|q1.1 - q2.1|) - (|q1.2 - q2.2|)|) p0 bl (0 + 1) m buf (by norm_num)
          rw [heq]
          simp only [Res.bind]
          rcases her with rfl | rfl
          · exact flush_temp_of_success W H buf _ rfl
          · intro hcon
            cases hcon
  · cases hc2 : toColor c with
    | error e => simp only [fillOp, hc2]
    | ok v =>
      obtain ⟨r, g, b, a⟩ := v
      simp only [fillOp, hc2]

/-- Claim C3 (witness). -/
theorem temp_empty_after_success_witness :
    (drawLine 2 2 (List.replicate 16 0) initialDrawerState (0, 0) (1, 1)
        (.str "#FFFFFF")).err = none ∧
    (drawLine 2 2 (List.replicate 16 0) initialDrawerState (0, 0) (1, 1)
        (.str "#FFFFFF")).st.temp = [] :=
  ⟨by decide,
   (temp_empty_after_success 2 2 (List.replicate 16 0) initialDrawerState
      (.str "#FFFFFF") rfl).1 (0, 0) (1, 1) (by decide)⟩

/-- Claim C9: starting from an unsuppressed state, the suppression
counter is 0 again when control returns from any public draw operation,
on error paths included; for drawBezier this holds for the default step
and for any positive caller-supplied step (a step ≤ 0 makes the JS
sampling loop run forever, so that call has no exit path at all). -/
theorem flushDisablers_restored (W H : ℤ) (buf : Buffer) (st : DrawerState)
    (c : Color) (hfd : st.flushDisablers = 0) :
    (∀ p1 p2, (drawLine W H buf st p1 p2 c).st.flushDisablers = 0) ∧
    (∀ p1 p2, (drawFilledRectangle W H buf st p1 p2 c).st.flushDisablers = 0) ∧
    (∀ p1 p2, (drawRectangle W H buf st p1 p2 c).st.flushDisablers = 0) ∧
    (∀ ctr r, (drawCircle W H buf st ctr r c).st.flushDisablers = 0) ∧
    (∀ ctr r, (drawFilledCircle W H buf st ctr r c).st.flushDisablers = 0) ∧
    (∀ t, (drawTriangle W H buf st t c).st.flushDisablers = 0) ∧
    (∀ pts, (drawPath W H buf st pts c).st.flushDisablers = 0) ∧
    (∀ pts stepArg, (stepArg = none ∨ ∃ s, 0 < s ∧ stepArg = some s) →
      (drawBezier W H buf st pts c stepArg).st.flushDisablers = 0) ∧
    (fillOp W H buf st c).st.flushDisablers = 0 := by
  obtain ⟨bl, th, m, fd⟩ := st
  have hfd0 : fd = 0 := hfd
  subst hfd0
  refine ⟨?_, ?_, ?_, ?_, ?_, ?_, ?_, ?_, ?_⟩
  · intro p1 p2
    obtain ⟨er, K, her, hK, h⟩ := bresLoop_char W H (jsRound p2.1) (jsRound p2.2)
      (|jsRound p2.1 - jsRound p1.1|) (|jsRound p2.2 - jsRound p1.2|)
      (if jsRound p1.1 < jsRound p2.1 then 1 else -1)
      (if jsRound p1.2 < jsRound p2.2 then 1 else -1) c th
      ((|jsRound p2.1 - jsRound p1.1| + |jsRound p2.2 - jsRound p1.2|).toNat + 1)
      (jsRound p1.1) (jsRound p1.2)
      (|jsRound p2.1 - jsRound p1.1| - |jsRound p2.2 - jsRound p1.2|)
    rcases her with rfl | rfl
    · simp only [drawLine, h bl 0 m buf (le_refl 0), Res.bind]
      rw [flush_fd]
    · simp only [drawLine, h bl 0 m buf (le_refl 0), Res.bind]
  · intro p1 p2
    obtain ⟨er, K, her, hK, h⟩ := frectLoop_char W H c p1.1 p2.1 p2.2
      (fuelFor p1.2 p2.2) p1.2
    rcases her with rfl | rfl
    · simp only [drawFilledRectangle, h]
      rw [flush_fd]
    · simp only [drawFilledRectangle, h]
  · intro p1 p2
    obtain ⟨er1, K1, her1, hK1, h1⟩ := spanLoop_char W H c p1.2 p2.2 p2.1
      (fuelFor p1.1 p2.1) p1.1
    rcases her1 with rfl | rfl
    · obtain ⟨er2, K2, her2, hK2, h2⟩ := vspanLoop_char W H c p1.1 p2.1 p2.2
        (fuelFor p1.2 p2.2) p1.2
      rcases her2 with rfl | rfl
      · simp only [drawRectangle, h1, h2]
        rw [flush_fd]
      · simp only [drawRectangle, h1, h2]
    · simp only [drawRectangle, h1]
  · intro ctr r
    obtain ⟨er, K, her, hK, h⟩ := circLoop_char W H ctr.1 ctr.2 c (fuelFor 0 r) 0 r
      (3 - 2 * r)
    rcases her with rfl | rfl
    · simp only [drawCircle, h]
      rw [flush_fd]
    · simp only [drawCircle, h]
  · intro ctr r
    obtain ⟨er, K, her, hK, h⟩ := fcLoop_char W H ctr.1 ctr.2 c (fuelFor 0 r) 0 r
      (3 - 2 * r)
    rcases her with rfl | rfl
    · simp only [drawFilledCircle, h]
      rw [flush_fd]
    · simp only [drawFilledCircle, h]
  · intro t
    obtain ⟨er1, K1, res1, her1, hK1, h1⟩ := triPass_char W H c t.2.1.2
      (ediv (t.2.1.1 - t.1.1) (t.2.1.2 - t.1.2))
      (ediv (t.2.2.1 - t.1.1) (t.2.2.2 - t.1.2))
      (fuelFor t.1.2 t.2.1.2) t.1.2 (.fin t.1.1) (.fin t.1.1)
    obtain ⟨xsv, xev⟩ := res1
    rcases her1 with rfl | rfl
    · obtain ⟨er2, K2, res2, her2, hK2, h2⟩ := triPass_char W H c t.2.2.2
        (ediv (t.2.2.1 - t.2.1.1) (t.2.2.2 - t.2.1.2))
        (ediv (t.2.2.1 - t.1.1) (t.2.2.2 - t.1.2))
        (fuelFor t.2.1.2 t.2.2.2) t.2.1.2 xsv (.fin t.2.1.1)
      obtain ⟨xs2, xe2⟩ := res2
      rcases her2 with rfl | rfl
      · simp only [drawTriangle, h1, h2]
        rw [flush_fd]
      · simp only [drawTriangle, h1, h2]
    · simp only [drawTriangle, h1]
  · intro pts
    by_cases hlen : pts.length < 2
    · simp only [drawPath, if_pos hlen]
    · obtain ⟨p0, rest, rfl⟩ : ∃ p0 rest, pts = p0 :: rest := by
        cases pts with
        | nil => simp at hlen
        | cons a l => exact ⟨a, l, rfl⟩
      simp only [drawPath, if_neg hlen]
      rw [pathLoop_eq W H c th rest p0 bl (0 + 1) m buf (by norm_num)]
      simp only [Res.bind]
      rw [flush_fd]
      show (0 : ℤ) + 1 - 1 = 0
      norm_num
  · intro pts stepArg hstep
    by_cases hlen : pts.length < 2
    · simp only [drawBezier, if_pos hlen]
    · obtain ⟨p0, rest, rfl⟩ : ∃ p0 rest, pts = p0 :: rest := by
        cases pts with
        | nil => simp at hlen
        | cons a l => exact ⟨a, l, rfl⟩
      rcases hstep with rfl | ⟨s, hs, rfl⟩
      · simp only [drawBezier, if_neg hlen]
        set q1 := rest.foldl (fun a b => (max a.1 b.1, max a.2 b.2)) p0 with hq1
        set q2 := rest.foldl (fun a b => (min a.1 b.1, min a.2 b.2)) p0 with hq2
        by_cases hden : |(|q1.1 - q2.1|) - (|q1.2 - q2.2|)| = 0
        · rw [if_pos hden]
          simp only [Res.bind]
          rw [flush_fd]
          show (0 : ℤ) + 1 - 1 = 0
          norm_num
        · rw [if_neg hden]
          have hpos : 0 < 1 / |(|q1.1 - q2.1|) - (|q1.2 - q2.2|)| := by
            have h0 : 0 ≤ |(|q1.1 - q2.1|) - (|q1.2 - q2.2|)| := abs_nonneg _
            have h1 : 0 < |(|q1.1 - q2.1|) - (|q1.2 - q2.2|)| :=
              lt_of_le_of_ne h0 (Ne.symm hden)
            positivity
          rw [if_pos hpos]
          obtain ⟨M, heq⟩ := bezLoop_complete W H (p0 :: rest) c
            (1 / |(|q1.1 - q2.1|) - (|q1.2 - q2.2|)|) th hpos
            ((⌈(1 - 1 / |(|q1.1 - q2.1|) - (|q1.2 - q2.2|)|) /
                (1 / |(|q1.1 - q2.1|) - (|q1.2 - q2.2|)|)⌉ + 1).toNat)
            (1 / |(|q1.1 - q2.1|) - (|q1.2 - q2.2|)|) p0 bl (0 + 1) m buf
            (by norm_num)
            (by
              have hgt := lt_toNatCeil_succ
                ((1 - 1 / |(|q1.1 - q2.1|) - (|q1.2 - q2.2|)|) /
                  (1 / |(|q1.1 - q2.1|) - (|q1.2 - q2.2|)|))
              rw [div_lt_iff hpos] at hgt
              linarith)
          rw [heq]
          simp only [Res.bind]
          rw [flush_fd]
          show (0 : ℤ) + 1 - 1 = 0
          norm_num
      · simp only [drawBezier, if_neg hlen]
        rw [if_pos hs]
        obtain ⟨M, heq⟩ := bezLoop_complete W H (p0 :: rest) c s th hs
          ((⌈(1 - s) / s⌉ + 1).toNat) s p0 bl (0 + 1) m buf (by norm_num)
          (by
            have hgt := lt_toNatCeil_succ ((1 - s) / s)
            rw [div_lt_iff hs] at hgt
            linarith)
        rw [heq]
        simp only [Res.bind]
        rw [flush_fd]
        show (0 : ℤ) + 1 - 1 = 0
        norm_num
  · cases hc2 : toColor c with
    | error e => simp only [fillOp, hc2]
    | ok v =>
      obtain ⟨r, g, b, a⟩ := v
      simp only [fillOp, hc2]

/-- Claim C9 (witness). -/
theorem flushDisablers_restored_witness :
    (drawLine 2 2 (List.replicate 16 0) initialDrawerState (0, 0) (1, 1)
        (.str "#FFFFFF")).st.flushDisablers = 0 ∧
    (drawBezier 2 2 (List.replicate 16 0) initialDrawerState [(0, 0), (1, 1)]
        (.str "#FFFFFF") none).st.flushDisablers = 0 :=
  ⟨(flushDisablers_restored 2 2 (List.replicate 16 0) initialDrawerState
      (.str "#FFFFFF") rfl).1 (0, 0) (1, 1),
   (flushDisablers_restored 2 2 (List.replicate 16 0) initialDrawerState
      (.str "#FFFFFF") rfl).2.2.2.2.2.2.2.1 [(0, 0), (1, 1)] none (Or.inl rfl)⟩

theorem segTemp_props (W H : ℤ) (c : Color) (th : ℚ) :
    ∀ (rest : List (ℚ × ℚ)) (p0 : ℚ × ℚ) (m : TempMap),
      (keysOf m).Nodup → uniformC c m → (∀ p ∈ m, 0 ≤ p.1) →
      (keysOf (segTemp W H c th rest p0 m)).Nodup ∧
      uniformC c (segTemp W H c th rest p0 m) ∧
      (∀ p ∈ segTemp W H c th rest p0 m, 0 ≤ p.1) := by
  intro rest
  induction rest with
  | nil => exact fun p0 m h1 h2 h3 => ⟨h1, h2, h3⟩
  | cons p r ih =>
    intro p0 m h1 h2 h3
    exact ih p (lineTemp W H c th p0 p m)
      (nodup_keysOf_lineTemp W H c th p0 p m h1)
      (uniformC_lineTemp W H c th p0 p m h2)
      (nonnegKeys_lineTemp W H c th p0 p m h3)

/-- Claim C4: drawPath over N ≥ 2 points from a clean blending state:
there is a duplicate-free set D of pixel indices such that every
in-range pixel is blended exactly once over its prior bytes if its
index is in D and is untouched otherwise (even where consecutive
segments share vertices); and the result is identical for any two
point lists with the same back-to-back deduplication. -/
theorem drawPath_blend_once_and_dedup (W H : ℤ) (buf : Buffer) (st : DrawerState)
    (P : List (ℚ × ℚ)) (c : Color) (nc : FullColor)
    (hW : 0 < W) (hH : 0 < H) (hlen : buf.length = (W * H * 4).toNat)
    (htemp : st.temp = []) (hfd : st.flushDisablers = 0) (hbl : st.blending = true)
    (hc : toColor c = .ok nc) (hP : 2 ≤ P.length) :
    (∃ D : List ℤ, D.Nodup ∧ ∀ i : ℤ, 0 ≤ i → i < W * H →
        pixAt (drawPath W H buf st P c).buf i =
          if i ∈ D then blendBytes (pixAt buf i) nc else pixAt buf i) ∧
    (∀ Q : List (ℚ × ℚ), 2 ≤ Q.length → dedupAdj P = dedupAdj Q →
        drawPath W H buf st P c = drawPath W H buf st Q c) := by
  obtain ⟨bl, th, m, fd⟩ := st
  have h1 : m = [] := htemp
  have h2 : fd = 0 := hfd
  have h3 : bl = true := hbl
  subst h1
  subst h2
  subst h3
  have hred : ∀ (r0 : ℚ × ℚ) (rr : List (ℚ × ℚ)), 2 ≤ (r0 :: rr).length →
      drawPath W H buf ⟨true, th, [], 0⟩ (r0 :: rr) c =
        flush W H buf ⟨true, th, segTemp W H c th rr r0 [], 0 + 1 - 1⟩ := by
    intro r0 rr hRlen
    simp only [drawPath, if_neg (by omega : ¬ (r0 :: rr).length < 2)]
    rw [pathLoop_eq W H c th rr r0 true (0 + 1) [] buf (by norm_num)]
    simp only [Res.bind]
  obtain ⟨p0, rest, rfl⟩ : ∃ p0 rest, P = p0 :: rest := by
    cases P with
    | nil => simp at hP
    | cons a l => exact ⟨a, l, rfl⟩
  constructor
  · rw [hred p0 rest hP]
    obtain ⟨hnd, hu, hnn⟩ := segTemp_props W H c th rest p0 []
      (by simp [keysOf]) (fun p hp => absurd hp (List.not_mem_nil p))
      (fun p hp => absurd hp (List.not_mem_nil p))
    refine ⟨keysOf (segTemp W H c th rest p0 []), hnd, ?_⟩
    intro i hi0 hiWH
    unfold flush
    rw [if_neg (by simp)]
    obtain ⟨hgerr, hglen, hgchar⟩ := flushGo_char W H c nc hW hH hc
      (segTemp W H c th rest p0 []) buf hnd hu hnn hlen
    cases hg : flushGo W H true (segTemp W H c th rest p0 []) buf with
    | mk e b2 =>
      cases e with
      | some ee =>
        rw [hg] at hgerr
        simp at hgerr
      | none =>
        rw [hg] at hgchar
        exact hgchar i hi0 hiWH
  · intro Q hQ hdd
    obtain ⟨q0, qrest, rfl⟩ : ∃ q0 qrest, Q = q0 :: qrest := by
      cases Q with
      | nil => simp at hQ
      | cons a l => exact ⟨a, l, rfl⟩
    rw [hred p0 rest hP, hred q0 qrest hQ]
    have e1 : segTemp W H c th rest p0 [] = segTemp W H c th qrest q0 [] := by
      rw [segTemp_eq_nsTemp_dedup W H c th rest p0 []
            (by intro hn; rw [hn] at hP; simp at hP)
            (fun p hp => absurd hp (List.not_mem_nil p)),
          segTemp_eq_nsTemp_dedup W H c th qrest q0 []
            (by intro hn; rw [hn] at hQ; simp at hQ)
            (fun p hp => absurd hp (List.not_mem_nil p)),
          hdd]
    rw [e1]

/-- Claim C4 (witness). -/
theorem drawPath_blend_once_and_dedup_witness :
    (∃ D : List ℤ, D.Nodup ∧ ∀ i : ℤ, 0 ≤ i → i < 2 * 2 →
        pixAt (drawPath 2 2 (List.replicate 16 0) initialDrawerState
            [(0, 0), (1, 1)] (.str "#FFFFFF")).buf i =
          if i ∈ D then
            blendBytes (pixAt (List.replicate 16 0) i)
              (some 255, some 255, some 255, some 255)
          else pixAt (List.replicate 16 0) i) ∧
    drawPath 2 2 (List.replicate 16 0) initialDrawerState [(0, 0), (1, 1)]
        (.str "#FFFFFF") =
      drawPath 2 2 (List.replicate 16 0) initialDrawerState
        [(0, 0), (1, 1), (1, 1)] (.str "#FFFFFF") :=
  ⟨(drawPath_blend_once_and_dedup 2 2 (List.replicate 16 0) initialDrawerState
      [(0, 0), (1, 1)] (.str "#FFFFFF") (some 255, some 255, some 255, some 255)
      (by decide) (by decide) (by decide) rfl rfl rfl (by decide) (by decide)).1,
   (drawPath_blend_once_and_dedup 2 2 (List.replicate 16 0) initialDrawerState
      [(0, 0), (1, 1)] (.str "#FFFFFF") (some 255, some 255, some 255, some 255)
      (by decide) (by decide) (by decide) rfl rfl rfl (by decide) (by decide)).2
     [(0, 0), (1, 1), (1, 1)] (by decide) (by decide)⟩
